import Mathlib

/-!
Verification of the `parkme-npm` scaffolding CLI (`src/bin/index.js`).

The development shallowly embeds the script's pure string manipulation
(placeholder substitution via JavaScript `String.prototype.replace`,
`path` handling) and its sequential provisioning pipeline (prompt,
optional overwrite, clone, data-file copy, config rendering, dependency
install, Tomcat check) as executable Lean definitions, and proves the
specified properties about them.

Strings are modelled as `List Char`; the filesystem as an association
list from paths to entries; external-process outcomes (clone, npm
install, catalina) as boolean fields of an environment record.
-/

namespace ParkMe

/-- Character-list strings, the representation used throughout. -/
abbrev Str := List Char

/-- Embedding of `normalizePath` (src/bin/index.js:20-22):
`filePath.replace(/\\/g, "/")`, a global replacement of every backslash
by a forward slash. -/
def normalizePath (filePath : Str) : Str :=
  filePath.map (fun c => if c = '\\' then '/' else c)

/-- JavaScript `String.prototype.replace` replacement-string expansion:
`$$` inserts a dollar, `$&` the matched substring, a dollar followed by a
backquote the portion before the match, `$'` the portion after the match;
any other dollar sequence is literal.  (With a string search pattern there
are no capture groups, so `$n` stays literal.) -/
def expandDollars (matched before after : Str) : Str → Str
  | [] => []
  | c :: rest =>
      if c = '$' then
        match rest with
        | [] => ['$']
        | d :: rest' =>
            if d = '$' then '$' :: expandDollars matched before after rest'
            else if d = '&' then matched ++ expandDollars matched before after rest'
            else if d = Char.ofNat 96 then
              before ++ expandDollars matched before after rest'
            else if d = '\'' then after ++ expandDollars matched before after rest'
            else '$' :: d :: expandDollars matched before after rest'
      else c :: expandDollars matched before after rest

/-- Split a string at the first occurrence of `pat`, returning the parts
before and after the match, or `none` when `pat` does not occur. -/
def splitFirst (s pat : Str) : Option (Str × Str) :=
  if pat.isPrefixOf s then some ([], s.drop pat.length)
  else
    match s with
    | [] => none
    | c :: rest => (splitFirst rest pat).map (fun ba => (c :: ba.1, ba.2))

/-- Embedding of JavaScript `String.prototype.replace(pat, repl)` with a
string search pattern: replaces the first occurrence of `pat` (if any) by
`repl` after dollar-sequence expansion. -/
def jsReplace (s pat repl : Str) : Str :=
  match splitFirst s pat with
  | none => s
  | some (b, a) => b ++ expandDollars pat b a repl ++ a

/-- Number of (possibly overlapping) start positions at which `pat`
occurs in `s`. -/
def countOccur (pat : Str) : Str → Nat
  | [] => if pat.isPrefixOf ([] : Str) then 1 else 0
  | c :: rest => (if pat.isPrefixOf (c :: rest) then 1 else 0) + countOccur pat rest

/-- The `%%user.file.path%%` placeholder token (src/bin/index.js:122). -/
def userToken : Str := "%%user.file.path%%".toList

/-- The `%%booking.file.path%%` placeholder token (src/bin/index.js:126). -/
def bookingToken : Str := "%%booking.file.path%%".toList

/-- The `%%transaction.file.path%%` placeholder token (src/bin/index.js:130). -/
def transactionToken : Str := "%%transaction.file.path%%".toList

/-- The `%%slots.file.path%%` placeholder token (src/bin/index.js:134). -/
def slotsToken : Str := "%%slots.file.path%%".toList

/-- POSIX `path.join` of a directory and one further component, as used by
the script (`path.join(dataDir, "users.json")` etc.): appends with a `/`
separator, avoiding a doubled slash when the directory already ends in
one. -/
def pathJoin (a b : Str) : Str :=
  if a.getLast? = some '/' then a ++ b else a ++ '/' :: b

/-- Embedding of the `result` computation (src/bin/index.js:120-136): the
config template with the four placeholder tokens substituted, in source
order, by the normalized joined data-file paths. -/
def renderConfig (dataDir template : Str) : Str :=
  jsReplace
    (jsReplace
      (jsReplace
        (jsReplace template userToken
          (normalizePath (pathJoin dataDir "users.json".toList)))
        bookingToken
        (normalizePath (pathJoin dataDir "bookings.json".toList)))
      transactionToken
      (normalizePath (pathJoin dataDir "transactions.json".toList)))
    slotsToken
    (normalizePath (pathJoin dataDir "parkingSlots.json".toList))

/-- Accumulator-style splitter of a path into its `/`-separated segments;
empty segments (leading, doubled or trailing slashes) are dropped. -/
def segsAux : Str → Str → List Str
  | [], acc => if acc = [] then [] else [acc.reverse]
  | c :: rest, acc =>
      if c = '/' then
        if acc = [] then segsAux rest [] else acc.reverse :: segsAux rest []
      else segsAux rest (c :: acc)

/-- The `/`-separated segments of a path string. -/
def segs (p : Str) : List Str := segsAux p []

/-- Concatenate path segments, prefixing each with a slash. -/
def catSegs : List Str → Str
  | [] => []
  | s :: rest => '/' :: (s ++ catSegs rest)

/-- Rebuild an absolute path from its segments (the empty segment list is
the filesystem root `/`). -/
def joinSegs (S : List Str) : Str :=
  if S = [] then ['/'] else catSegs S

/-- Resolution of `.` and `..` segments, left to right with a stack, as
performed by Node's `path.resolve`/`path.normalize`; `..` above the root
is dropped. -/
def resolveSegs : List Str → List Str → List Str
  | stack, [] => stack.reverse
  | stack, s :: rest =>
      if s = ['.'] then resolveSegs stack rest
      else if s = ['.', '.'] then resolveSegs (stack.drop 1) rest
      else resolveSegs (s :: stack) rest

/-- Embedding of `path.resolve(process.cwd(), projectName)`
(src/bin/index.js:57) for a POSIX host with absolute `cwd`: an absolute
`name` stands alone, otherwise it is appended to `cwd`; the result is
normalized (`.`/`..` resolution, slash collapsing). -/
def pathResolve (cwd name : Str) : Str :=
  let full := if name.head? = some '/' then name else cwd ++ '/' :: name
  joinSegs (resolveSegs [] (segs full))

/-- The default project name offered by the prompt (src/bin/index.js:53). -/
def defaultProjectName : Str := "park-me-app".toList

/-- The effective project name: the prompt input, or the inquirer default
`"park-me-app"` when the input is left blank. -/
def effectiveName (input : Str) : Str :=
  if input = [] then defaultProjectName else input

/-- The computed `targetDir` (src/bin/index.js:57):
`path.resolve(process.cwd(), projectName)`. -/
def targetDirOf (cwd input : Str) : Str :=
  pathResolve cwd (effectiveName input)

/-- A filesystem entry: a directory or a file with byte contents. -/
inductive Entry
  | dir : Entry
  | file (contents : Str) : Entry
  deriving DecidableEq

/-- The filesystem, an association list from absolute paths to entries;
`List.lookup` (first match wins) is the read operation. -/
abbrev FS := List (Str × Entry)

/-- `p` lies at or below directory `t` (segment-wise path prefix), the
scope of the recursive `fs.remove(t)`. -/
def underDir (t p : Str) : Bool := (segs t).isPrefixOf (segs p)

/-- Filesystem-effecting events of one run, in execution order. -/
inductive Ev
  | removeDir (p : Str)
  | ensureDir (p : Str)
  | cloneInto (dst : Str) (tree : List (Str × Str))
  | copyFile (dst : Str) (contents : Str)
  | writeFile (p : Str) (contents : Str)
  deriving DecidableEq

/-- Interpretation of one event on the filesystem:
`removeDir` deletes the whole subtree, `ensureDir` creates the directory
when absent, `cloneInto` materializes the cloned working tree under the
destination, `copyFile`/`writeFile` create or overwrite one file. -/
def applyEv (fs : FS) : Ev → FS
  | .removeDir p => fs.filter (fun pe => !underDir p pe.1)
  | .ensureDir p => if (fs.lookup p).isSome then fs else (p, .dir) :: fs
  | .cloneInto dst tree =>
      tree.foldl (fun acc rc => (pathJoin dst rc.1, .file rc.2) :: acc) fs
  | .copyFile dst contents => (dst, .file contents) :: fs
  | .writeFile p contents => (p, .file contents) :: fs

/-- Apply a trace of events left to right. -/
def applyTrace (fs : FS) (evs : List Ev) : FS := evs.foldl applyEv fs

/-- Inputs and external outcomes of one interactive run: the working
directory, the prompt answers, the initial filesystem, the outcome of
each fallible external step, and the bundled assets (template files, the
config template) the script reads. -/
structure Env where
  cwd : Str
  nameInput : Str
  fs0 : FS
  overwriteAnswer : Bool
  cloneOk : Bool
  cloneTree : List (Str × Str)
  tplUsers : Str
  tplBookings : Str
  tplTransactions : Str
  tplSlots : Str
  dataOk : Bool
  dataCopiesDone : Nat
  configReadOk : Bool
  configTemplate : Str
  configWriteOk : Bool
  installOk : Bool
  isWindows : Bool
  tomcatOk : Bool

/-- Observable outcome of a run: the process exit code, the filesystem
events performed, whether a caught error was printed via
`console.error`, the advisory warnings printed, and whether the final
success banner was logged. -/
structure RunResult where
  exitCode : Nat
  trace : List Ev
  errorPrinted : Bool
  warnMsgs : List Str
  doneLogged : Bool
  deriving DecidableEq

/-- Link printed by the advisory Tomcat warning (src/bin/index.js:181). -/
def tomcatUrl : Str := "https://tomcat.apache.org/download-90.cgi".toList

/-- Text of the advisory Tomcat warning (src/bin/index.js:179-183). -/
def tomcatWarnMsg : Str :=
  "Please install Tomcat to run the application.\n".toList ++ tomcatUrl

/-- The version-check command chosen for the host OS
(src/bin/index.js:173-174). -/
def tomcatCommand (isWindows : Bool) : Str :=
  if isWindows then "catalina.bat version".toList else "catalina version".toList

/-- The four bundled data-file names, in copy order (src/bin/index.js:89-94). -/
def dataFileNames : List Str :=
  ["users.json".toList, "bookings.json".toList,
   "transactions.json".toList, "parkingSlots.json".toList]

/-- The bundled template contents for the four data files, in copy order. -/
def tplContents (env : Env) : List Str :=
  [env.tplUsers, env.tplBookings, env.tplTransactions, env.tplSlots]

/-- The copy events of the data-provisioning step: each of the four
template files copied into the data directory, preserving its name
(src/bin/index.js:95-100). -/
def copyEvents (env : Env) (dataDir : Str) : List Ev :=
  (dataFileNames.zip (tplContents env)).map
    (fun nc => Ev.copyFile (pathJoin dataDir nc.1) nc.2)

/-- The relative path of the rendered config inside the app directory
(src/bin/index.js:139): `src/main/resources/config.properties`. -/
def configRelPath : Str := "src/main/resources/config.properties".toList

/-- Embedding of the whole sequential pipeline (src/bin/index.js:45-196):
prompt for a name, confirm (and perform) the overwrite when the target
exists, clone the repository into `app`, provision `data` with the four
template files, render and write `config.properties`, run `npm install`,
and check for Tomcat (advisory only).  Every fatal step prints the error
and exits with code 1; declining the overwrite exits with code 0 before
any filesystem effect. -/
def runPipeline (env : Env) : RunResult :=
  let targetDir := targetDirOf env.cwd env.nameInput
  let appDir := pathJoin targetDir "app".toList
  let dataDir := pathJoin targetDir "data".toList
  let dirExists := (env.fs0.lookup targetDir).isSome
  if dirExists && !env.overwriteAnswer then
    { exitCode := 0, trace := [], errorPrinted := false
      warnMsgs := [], doneLogged := false }
  else
    let t0 : List Ev := if dirExists then [.removeDir targetDir] else []
    let t1 := t0 ++ [.ensureDir appDir]
    if !env.cloneOk then
      { exitCode := 1, trace := t1, errorPrinted := true
        warnMsgs := [], doneLogged := false }
    else
      let t2 := t1 ++ [.cloneInto appDir env.cloneTree, .ensureDir dataDir]
      if !env.dataOk then
        { exitCode := 1
          trace := t2 ++ (copyEvents env dataDir).take env.dataCopiesDone
          errorPrinted := true, warnMsgs := [], doneLogged := false }
      else
        let t3 := t2 ++ copyEvents env dataDir
        if !env.configReadOk then
          { exitCode := 1, trace := t3, errorPrinted := true
            warnMsgs := [], doneLogged := false }
        else if !env.configWriteOk then
          { exitCode := 1, trace := t3, errorPrinted := true
            warnMsgs := [], doneLogged := false }
        else
          let t4 := t3 ++
            [.writeFile (pathJoin appDir configRelPath)
              (renderConfig dataDir env.configTemplate)]
          if !env.installOk then
            { exitCode := 1, trace := t4, errorPrinted := true
              warnMsgs := [], doneLogged := false }
          else
            { exitCode := 0, trace := t4, errorPrinted := false
              warnMsgs := if env.tomcatOk then [] else [tomcatWarnMsg]
              doneLogged := true }

/-- The filesystem at process termination: the initial filesystem with
the run's events applied. -/
def finalFS (env : Env) : FS := applyTrace env.fs0 (runPipeline env).trace

/-! ### Prefix and occurrence lemmas -/

/-- Decompose a prefix of an appended string: the pattern either stops
inside the first part, or swallows the whole first part and continues as
a prefix of the second. -/
theorem prefix_of_append_cases :
    ∀ (sfx : Str) (pat : Str) (tail : Str), pat <+: sfx ++ tail →
      pat <+: sfx ∨ (sfx <+: pat ∧ pat.drop sfx.length <+: tail)
  | [], pat, tail, h => Or.inr ⟨List.nil_prefix, by simpa using h⟩
  | c :: sfx', pat, tail, h => by
      cases pat with
      | nil => exact Or.inl List.nil_prefix
      | cons a pat' =>
          rw [List.cons_append, List.cons_prefix_cons] at h
          obtain ⟨rfl, h'⟩ := h
          rcases prefix_of_append_cases sfx' pat' tail h' with h1 | ⟨h1, h2⟩
          · exact Or.inl (List.cons_prefix_cons.2 ⟨rfl, h1⟩)
          · exact Or.inr ⟨List.cons_prefix_cons.2 ⟨rfl, h1⟩, by simpa using h2⟩

/-- Dollar-free replacement strings are inserted literally. -/
theorem expandDollars_eq_self (m b a : Str) :
    ∀ repl : Str, '$' ∉ repl → expandDollars m b a repl = repl
  | [], _ => rfl
  | c :: rest, h => by
      have hc : ¬ c = '$' := fun e => h (e ▸ List.mem_cons_self c rest)
      have hr : '$' ∉ rest := fun e => h (List.mem_cons_of_mem _ e)
      rw [expandDollars.eq_def]
      simp [hc, expandDollars_eq_self m b a rest hr]

/-- `noStart pat tail C` says that no occurrence of `pat` in `C ++ tail`
begins strictly inside `C`. -/
def noStart (pat tail : Str) : Str → Prop
  | [] => True
  | c :: C => ¬ pat <+: c :: (C ++ tail) ∧ noStart pat tail C

theorem noStart_append {pat tail : Str} :
    ∀ A B : Str, noStart pat (B ++ tail) A → noStart pat tail B →
      noStart pat tail (A ++ B)
  | [], _, _, hB => hB
  | c :: A', B, hA, hB =>
      ⟨fun h => hA.1 (by simpa [List.append_assoc] using h),
       noStart_append A' B hA.2 hB⟩

/-- A segment free of the pattern's first character admits no occurrence
start. -/
theorem noStart_of_head_notMem {pat tail : Str} {ch : Char} {pat' : Str}
    (hp : pat = ch :: pat') : ∀ q : Str, (∀ c ∈ q, c ≠ ch) → noStart pat tail q
  | [], _ => trivial
  | c :: q', hq => by
      refine ⟨?_, noStart_of_head_notMem hp q' fun c hc => hq c (List.mem_cons_of_mem _ hc)⟩
      intro h
      rw [hp, List.cons_prefix_cons] at h
      exact hq c (List.mem_cons_self c q') h.1.symm

/-- Discharge `noStart` for a concrete segment: no nonempty suffix of `C`
extends to an occurrence, given that (a) the pattern is a prefix of no
nonempty suffix of `C` and (b) suffixes of `C` that are proper prefixes
of the pattern cannot be completed inside `tail`. -/
theorem noStart_auto {pat tail : Str} :
    ∀ C : Str, (∀ sfx ∈ C.tails, sfx ≠ [] → ¬ pat <+: sfx) →
      (∀ sfx ∈ C.tails, sfx ≠ [] → sfx <+: pat → ¬ pat.drop sfx.length <+: tail) →
      noStart pat tail C
  | [], _, _ => trivial
  | c :: C', h1, h2 => by
      have hmem : c :: C' ∈ (c :: C').tails :=
        (List.mem_tails _ _).2 (List.suffix_refl _)
      refine ⟨?_, noStart_auto C' ?_ ?_⟩
      · intro h
        rcases prefix_of_append_cases (c :: C') pat tail (by simpa using h) with hl | ⟨hl, hr⟩
        · exact h1 _ hmem (by simp) hl
        · exact h2 _ hmem (by simp) hl hr
      · intro sfx hs hne
        exact h1 sfx ((List.mem_tails _ _).2
          (((List.mem_tails _ _).1 hs).trans (List.suffix_cons c C'))) hne
      · intro sfx hs hne
        exact h2 sfx ((List.mem_tails _ _).2
          (((List.mem_tails _ _).1 hs).trans (List.suffix_cons c C'))) hne

/-- Where the first occurrence is known structurally, `splitFirst` finds
exactly it. -/
theorem splitFirst_structural {pat D : Str} :
    ∀ C : Str, noStart pat (pat ++ D) C →
      splitFirst (C ++ pat ++ D) pat = some (C, D)
  | [], _ => by
      have hpre : pat.isPrefixOf (pat ++ D) = true :=
        List.isPrefixOf_iff_prefix.2 (List.prefix_append pat D)
      rw [List.nil_append, splitFirst.eq_def]
      simp [hpre, List.drop_left]
  | c :: C', h => by
      obtain ⟨h1, h2⟩ := h
      have hrec := splitFirst_structural C' h2
      have hpre : pat.isPrefixOf (c :: (C' ++ (pat ++ D))) = false := by
        rw [Bool.eq_false_iff]
        intro hcontra
        exact h1 (List.isPrefixOf_iff_prefix.1 hcontra)
      rw [List.append_assoc, List.cons_append, splitFirst.eq_def]
      rw [List.append_assoc] at hrec
      simp [hpre, hrec]

/-- When the pattern does not occur, `splitFirst` returns `none`. -/
theorem splitFirst_eq_none {pat : Str} :
    ∀ s : Str, ¬ pat <:+: s → splitFirst s pat = none
  | [], h => by
      have hne : pat ≠ [] := by
        rintro rfl; exact h (List.infix_refl _)
      have : pat.isPrefixOf ([] : Str) = false := by
        rw [Bool.eq_false_iff]
        intro hc
        exact hne (List.prefix_nil.1 (List.isPrefixOf_iff_prefix.1 hc))
      simp [splitFirst, this]
  | c :: rest, h => by
      have hpre : pat.isPrefixOf (c :: rest) = false := by
        rw [Bool.eq_false_iff]
        intro hc
        exact h (List.isPrefixOf_iff_prefix.1 hc).isInfix
      have hrest : ¬ pat <:+: rest := fun hc => h (List.infix_cons hc)
      simp [splitFirst, hpre, splitFirst_eq_none rest hrest]

/-- Substituting a token that does not occur is a no-op. -/
theorem jsReplace_no_occurrence {s pat repl : Str} (h : ¬ pat <:+: s) :
    jsReplace s pat repl = s := by
  simp [jsReplace, splitFirst_eq_none s h]

theorem countOccur_pos_of_isPrefixOf {pat s : Str} (h : pat.isPrefixOf s = true) :
    0 < countOccur pat s := by
  cases s with
  | nil => simp [countOccur, h]
  | cons c rest => simp [countOccur, h]

theorem countOccur_pos_of_occurs {pat s : Str} (h : pat <:+: s) :
    0 < countOccur pat s := by
  obtain ⟨l, r, rfl⟩ := h
  induction l with
  | nil =>
      exact countOccur_pos_of_isPrefixOf
        (List.isPrefixOf_iff_prefix.2 (List.prefix_append pat r))
  | cons c l' ih =>
      calc 0 < countOccur pat (l' ++ pat ++ r) := ih
        _ ≤ countOccur pat (c :: (l' ++ pat ++ r)) := by
              simp [countOccur]
        _ = countOccur pat (c :: l' ++ pat ++ r) := by simp

theorem not_infix_of_countOccur_eq_zero {pat s : Str}
    (h : countOccur pat s = 0) : ¬ pat <:+: s := fun hc =>
  absurd h (Nat.pos_iff_ne_zero.1 (countOccur_pos_of_occurs hc))

/-- A string avoiding the pattern's first character contains no
occurrence at all. -/
theorem countOccur_eq_zero_of_notMem {ch : Char} {pat' : Str} :
    ∀ s : Str, (∀ c ∈ s, c ≠ ch) → countOccur (ch :: pat') s = 0
  | [], _ => by simp [countOccur]
  | c :: rest, hs => by
      have hpre : (ch :: pat').isPrefixOf (c :: rest) = false := by
        rw [Bool.eq_false_iff]
        intro hc
        exact hs c (List.mem_cons_self c rest)
          (List.cons_prefix_cons.1 (List.isPrefixOf_iff_prefix.1 hc)).1.symm
      simp [countOccur, hpre,
        countOccur_eq_zero_of_notMem rest fun c hc => hs c (List.mem_cons_of_mem _ hc)]

/-! ### The four tokens, indexed -/

/-- The four placeholder tokens, in the substitution order the script
uses (users, bookings, transactions, parkingSlots). -/
def tokOf : Fin 4 → Str
  | 0 => userToken
  | 1 => bookingToken
  | 2 => transactionToken
  | 3 => slotsToken

/-- The middle part of each token, between the `%%` delimiters. -/
def midOf : Fin 4 → Str
  | 0 => "user.file.path".toList
  | 1 => "booking.file.path".toList
  | 2 => "transaction.file.path".toList
  | 3 => "slots.file.path".toList

/-- The four data-file names, in substitution order. -/
def fileOf : Fin 4 → Str
  | 0 => "users.json".toList
  | 1 => "bookings.json".toList
  | 2 => "transactions.json".toList
  | 3 => "parkingSlots.json".toList

/-- The normalized absolute path substituted for token `i`. -/
def dataPath (dataDir : Str) (i : Fin 4) : Str :=
  normalizePath (pathJoin dataDir (fileOf i))

theorem tokOf_decomp : ∀ X : Fin 4,
    tokOf X = '%' :: '%' :: (midOf X ++ ['%', '%']) := by decide

theorem midOf_ne_nil : ∀ X : Fin 4, midOf X ≠ [] := by decide

theorem percent_notMem_midOf : ∀ X : Fin 4, '%' ∉ midOf X := by decide

theorem slash_notMem_midOf : ∀ X : Fin 4, '/' ∉ midOf X := by decide

theorem percent_notMem_fileOf : ∀ X : Fin 4, '%' ∉ fileOf X := by decide

theorem dollar_notMem_fileOf : ∀ X : Fin 4, '$' ∉ fileOf X := by decide

/-! ### Character membership in computed paths -/

theorem notMem_normalizePath {c : Char} {p : Str} (hc : c ≠ '/') (h : c ∉ p) :
    c ∉ normalizePath p := by
  intro hmem
  obtain ⟨x, hx, hxc⟩ := List.mem_map.1 hmem
  by_cases hb : x = '\\'
  · simp [hb] at hxc
    exact hc hxc.symm
  · simp [hb] at hxc
    exact h (hxc ▸ hx)

theorem notMem_pathJoin {c : Char} {a b : Str} (hc : c ≠ '/')
    (ha : c ∉ a) (hb : c ∉ b) : c ∉ pathJoin a b := by
  unfold pathJoin
  split
  · intro h
    rcases List.mem_append.1 h with h | h
    exacts [ha h, hb h]
  · intro h
    rcases List.mem_append.1 h with h | h
    · exact ha h
    · rcases List.mem_cons.1 h with h | h
      exacts [hc h, hb h]

theorem slash_mem_normalizePath {p : Str} (h : '/' ∈ p) :
    '/' ∈ normalizePath p :=
  List.mem_map.2 ⟨'/', h, by simp⟩

theorem slash_mem_pathJoin (a b : Str) : '/' ∈ pathJoin a b := by
  unfold pathJoin
  split
  · rename_i h
    exact List.mem_append.2 (Or.inl (List.mem_of_mem_getLast? h))
  · exact List.mem_append.2 (Or.inr (List.mem_cons_self _ _))

theorem percent_notMem_dataPath {dataDir : Str} (h : '%' ∉ dataDir) (i : Fin 4) :
    '%' ∉ dataPath dataDir i :=
  notMem_normalizePath (by decide)
    (notMem_pathJoin (by decide) h (percent_notMem_fileOf i))

theorem dollar_notMem_dataPath {dataDir : Str} (h : '$' ∉ dataDir) (i : Fin 4) :
    '$' ∉ dataPath dataDir i :=
  notMem_normalizePath (by decide)
    (notMem_pathJoin (by decide) h (dollar_notMem_fileOf i))

theorem slash_mem_dataPath (dataDir : Str) (i : Fin 4) :
    '/' ∈ dataPath dataDir i :=
  slash_mem_normalizePath (slash_mem_pathJoin _ _)

/-! ### The obstruction lemma: no token occurrence can straddle a
separator boundary in a well-formed template state -/

/-- An element following a separator in the template state: either a
placeholder token (which starts with `%%`) or an inserted clean path
(percent-free and containing a slash). -/
def goodElem (e : Str) : Prop :=
  (∃ e', e = '%' :: '%' :: e') ∨ ('%' ∉ e ∧ '/' ∈ e)

/-- Neither `mid ++ %%` nor `% ++ mid ++ %%` (the ways a token occurrence
can hang over into the rest of the template after consuming a trailing
`%%` or final `%`) is a prefix of separator-then-element-then-rest. -/
theorem obstruct {mid p e rest : Str}
    (hmidne : mid ≠ []) (hmidp : '%' ∉ mid) (hmids : '/' ∉ mid)
    (hp : '%' ∉ p) (hpmid : p ≠ mid) (he : goodElem e) :
    ¬ (mid ++ ['%', '%']) <+: p ++ (e ++ rest) ∧
      ¬ ('%' :: (mid ++ ['%', '%'])) <+: p ++ (e ++ rest) := by
  constructor
  · intro h
    rcases prefix_of_append_cases p _ _ h with h1 | ⟨h1, h2⟩
    · exact hp (h1.subset (by simp))
    · have hpm : p <+: mid := by
        rcases prefix_of_append_cases mid p ['%', '%'] h1 with hA | ⟨hA, hB⟩
        · exact hA
        · cases hd : p.drop mid.length with
          | nil =>
              have hle : p.length ≤ mid.length := List.drop_eq_nil_iff.1 hd
              exact absurd (hA.eq_of_length
                (le_antisymm hA.length_le hle)) (fun hx => hpmid hx.symm)
          | cons x d' =>
              have hx : x = '%' := (List.cons_prefix_cons.1 (hd ▸ hB)).1
              have hxm : x ∈ p.drop mid.length := by
                rw [hd]; exact List.mem_cons_self x d'
              exact absurd (List.drop_subset _ _ hxm) (fun hmem => hp (hx ▸ hmem))
      have hlt : p.length < mid.length := by
        rcases lt_or_eq_of_le hpm.length_le with hl | hl
        · exact hl
        · exact absurd (hpm.eq_of_length hl) hpmid
      rw [List.drop_append_of_le_length (le_of_lt hlt)] at h2
      cases hmd : mid.drop p.length with
      | nil => exact absurd (List.drop_eq_nil_iff.1 hmd) (not_le.2 hlt)
      | cons m0 mr =>
          rw [hmd] at h2
          have hm0 : m0 ∈ mid := List.drop_subset _ _
            (by rw [hmd]; exact List.mem_cons_self m0 mr)
          have hmr : ∀ x ∈ mr, x ∈ mid := fun x hx =>
            List.drop_subset _ _ (by rw [hmd]; exact List.mem_cons_of_mem _ hx)
          rcases prefix_of_append_cases e _ rest h2 with h3 | ⟨h3, h4⟩
          · rcases he with ⟨e', rfl⟩ | ⟨hep, hes⟩
            · have hm0eq := (List.cons_prefix_cons.1 (by simpa using h3)).1
              exact hmidp (hm0eq ▸ hm0)
            · exact hep (h3.subset (by simp))
          · rcases he with ⟨e', rfl⟩ | ⟨hep, hes⟩
            · have hm0eq := (List.cons_prefix_cons.1 (by simpa using h3)).1
              exact hmidp (hm0eq.symm ▸ hm0)
            · have hmem := h3.subset hes
              rcases (by simpa using hmem : '/' = m0 ∨ '/' ∈ mr) with hm | hm
              · exact hmids (by rw [hm]; exact hm0)
              · exact hmids (hmr _ hm)
  · intro h
    rcases prefix_of_append_cases p _ _ h with h1 | ⟨h1, h2⟩
    · exact hp (h1.subset (List.mem_cons_self _ _))
    · cases p with
      | cons q p' =>
          have hq := (List.cons_prefix_cons.1 h1).1
          exact hp (hq ▸ List.mem_cons_self q p')
      | nil =>
          simp only [List.length_nil, List.drop_zero] at h2
          obtain ⟨m0, mr, rfl⟩ : ∃ m0 mr, mid = m0 :: mr := by
            cases mid with
            | nil => exact absurd rfl hmidne
            | cons a b => exact ⟨a, b, rfl⟩
          have hm0 : m0 ∈ m0 :: mr := List.mem_cons_self m0 mr
          have h2' : '%' :: ((m0 :: mr) ++ ['%', '%']) <+: e ++ rest := by
            simpa using h2
          rcases prefix_of_append_cases e _ rest h2' with h3 | ⟨h3, h4⟩
          · rcases he with ⟨e', rfl⟩ | ⟨hep, hes⟩
            · have h5 := (List.cons_prefix_cons.1 h3).2
              have hm0eq := (List.cons_prefix_cons.1 (by simpa using h5)).1
              exact hmidp (hm0eq ▸ hm0)
            · exact hep (h3.subset (List.mem_cons_self _ _))
          · rcases he with ⟨e', rfl⟩ | ⟨hep, hes⟩
            · have h5 := (List.cons_prefix_cons.1 h3).2
              have hm0eq := (List.cons_prefix_cons.1 (by simpa using h5)).1
              exact hmidp (hm0eq.symm ▸ hm0)
            · have hmem := h3.subset hes
              rcases List.mem_cons.1 hmem with hm | hm
              · exact absurd hm (by decide)
              · rcases (by simpa using hm : '/' = m0 ∨ '/' ∈ mr) with hm' | hm'
                · exact hmids (by rw [hm']; exact List.mem_cons_self m0 mr)
                · exact hmids (List.mem_cons_of_mem _ hm')

theorem tok_no_full : ∀ j X : Fin 4, j ≠ X →
    ∀ sfx ∈ (tokOf j).tails, sfx ≠ [] →
      (tokOf X).isPrefixOf sfx = false := by decide

theorem tok_sfx : ∀ j X : Fin 4, j ≠ X → ∀ sfx ∈ (tokOf j).tails, sfx ≠ [] →
    sfx.isPrefixOf (tokOf X) = true → sfx = ['%'] ∨ sfx = ['%', '%'] := by decide

theorem tokOf_drop_one (X : Fin 4) :
    (tokOf X).drop 1 = '%' :: (midOf X ++ ['%', '%']) := by
  rw [tokOf_decomp]; rfl

theorem tokOf_drop_two (X : Fin 4) :
    (tokOf X).drop 2 = midOf X ++ ['%', '%'] := by
  rw [tokOf_decomp]; rfl

/-- A whole token `j ≠ X` in the context admits no start of an occurrence
of token `X`, given that the following separator and element are
well-formed. -/
theorem noStart_token {X j : Fin 4} (hne : j ≠ X) {p e rest : Str}
    (hp : '%' ∉ p) (hpmid : p ≠ midOf X) (he : goodElem e) :
    noStart (tokOf X) (p ++ (e ++ rest)) (tokOf j) := by
  apply noStart_auto
  · intro sfx hmem hne' hcontra
    have hb := List.isPrefixOf_iff_prefix.2 hcontra
    rw [tok_no_full j X hne sfx hmem hne'] at hb
    exact Bool.false_ne_true hb
  · intro sfx hmem hne' hpre
    rcases tok_sfx j X hne sfx hmem hne'
        (List.isPrefixOf_iff_prefix.2 hpre) with rfl | rfl
    · rw [show (['%'] : Str).length = 1 from rfl, tokOf_drop_one]
      exact (obstruct (midOf_ne_nil X) (percent_notMem_midOf X)
        (slash_notMem_midOf X) hp hpmid he).2
    · rw [show (['%', '%'] : Str).length = 2 from rfl, tokOf_drop_two]
      exact (obstruct (midOf_ne_nil X) (percent_notMem_midOf X)
        (slash_notMem_midOf X) hp hpmid he).1

/-- Concatenation of the (separator, element) pairs preceding the
substituted slot. -/
def ctxCat : List (Str × Str) → Str
  | [] => []
  | pe :: rest => pe.1 ++ (pe.2 ++ ctxCat rest)

/-- Well-formedness of the context preceding the substituted token:
percent-free separators differing from token `X`'s middle part, and
elements that are other tokens or clean paths. -/
def goodPre (X : Fin 4) (pre : List (Str × Str)) : Prop :=
  ∀ pe ∈ pre, '%' ∉ pe.1 ∧ pe.1 ≠ midOf X ∧
    ((∃ j : Fin 4, j ≠ X ∧ pe.2 = tokOf j) ∨ ('%' ∉ pe.2 ∧ '/' ∈ pe.2))

theorem goodElem_of (X : Fin 4) {e : Str}
    (h : (∃ j : Fin 4, j ≠ X ∧ e = tokOf j) ∨ ('%' ∉ e ∧ '/' ∈ e)) :
    goodElem e := by
  rcases h with ⟨j, _, rfl⟩ | h
  · exact Or.inl ⟨midOf j ++ ['%', '%'], tokOf_decomp j⟩
  · exact Or.inr h

/-- `noStart` for a context element (token or clean path), with the tail
shaped separator-element-rest. -/
theorem noStart_elem {X : Fin 4} {e : Str}
    (hel : (∃ j : Fin 4, j ≠ X ∧ e = tokOf j) ∨ ('%' ∉ e ∧ '/' ∈ e))
    {p' e' rest' : Str} (hp' : '%' ∉ p') (hp'mid : p' ≠ midOf X)
    (he' : goodElem e') :
    noStart (tokOf X) (p' ++ (e' ++ rest')) e := by
  rcases hel with ⟨j, hj, rfl⟩ | ⟨hep, _⟩
  · exact noStart_token hj hp' hp'mid he'
  · exact noStart_of_head_notMem (tokOf_decomp X) e fun c hc hcp => hep (hcp ▸ hc)

/-- No occurrence of token `X` starts strictly inside the well-formed
context preceding its structural slot. -/
theorem noStart_ctx {X : Fin 4} {pX suffix : Str}
    (hpX : '%' ∉ pX) (hpXmid : pX ≠ midOf X) :
    ∀ pre : List (Str × Str), goodPre X pre →
      noStart (tokOf X) (tokOf X ++ suffix) (ctxCat pre ++ pX)
  | [], _ =>
      noStart_of_head_notMem (tokOf_decomp X) pX fun c hc hcp => hpX (hcp ▸ hc)
  | (p, e) :: pre', hgood => by
      have hpe := hgood (p, e) (List.mem_cons_self _ _)
      have hrest : goodPre X pre' := fun q hq => hgood q (List.mem_cons_of_mem _ hq)
      have hshape : ctxCat ((p, e) :: pre') ++ pX
          = p ++ (e ++ (ctxCat pre' ++ pX)) := by
        simp [ctxCat, List.append_assoc]
      rw [hshape]
      refine noStart_append p _ ?_ (noStart_append e _ ?_ (noStart_ctx hpX hpXmid pre' hrest))
      · exact noStart_of_head_notMem (tokOf_decomp X) p
          fun c hc hcp => hpe.1 (hcp ▸ hc)
      · cases pre' with
        | nil =>
            have hsh : (ctxCat [] ++ pX) ++ (tokOf X ++ suffix)
                = pX ++ (tokOf X ++ suffix) := rfl
            rw [hsh]
            exact noStart_elem hpe.2.2 hpX hpXmid
              (Or.inl ⟨midOf X ++ ['%', '%'], tokOf_decomp X⟩)
        | cons q pre'' =>
            have hq := hrest q (List.mem_cons_self _ _)
            have hsh : (ctxCat (q :: pre'') ++ pX) ++ (tokOf X ++ suffix)
                = q.1 ++ (q.2 ++ ((ctxCat pre'' ++ pX) ++ (tokOf X ++ suffix))) := by
              simp [ctxCat, List.append_assoc]
            rw [hsh]
            exact noStart_elem hpe.2.2 hq.1 hq.2.1 (goodElem_of X hq.2.2)

theorem jsReplace_eq_some {s pat repl b a : Str}
    (h : splitFirst s pat = some (b, a)) :
    jsReplace s pat repl = b ++ expandDollars pat b a repl ++ a := by
  unfold jsReplace
  rw [h]

/-- The structural substitution step: in a well-formed template state,
substituting token `X` replaces exactly its structural occurrence by the
(dollar-free, hence literally inserted) data path. -/
theorem jsReplace_step {X : Fin 4} {dataDir pX : Str}
    (pre : List (Str × Str)) (suffix : Str) (hpre : goodPre X pre)
    (hpX : '%' ∉ pX) (hpXmid : pX ≠ midOf X)
    (hdd2 : '$' ∉ dataDir) :
    jsReplace (ctxCat pre ++ (pX ++ (tokOf X ++ suffix))) (tokOf X)
        (dataPath dataDir X)
      = ctxCat pre ++ (pX ++ (dataPath dataDir X ++ suffix)) := by
  have hsplit : splitFirst ((ctxCat pre ++ pX) ++ tokOf X ++ suffix) (tokOf X)
      = some (ctxCat pre ++ pX, suffix) :=
    splitFirst_structural _ (noStart_ctx hpX hpXmid pre hpre)
  have hshape : ctxCat pre ++ (pX ++ (tokOf X ++ suffix))
      = (ctxCat pre ++ pX) ++ tokOf X ++ suffix := by
    simp [List.append_assoc]
  rw [hshape, jsReplace_eq_some hsplit,
    expandDollars_eq_self _ _ _ _ (dollar_notMem_dataPath hdd2 X)]
  simp [List.append_assoc]

/-! ### Template states with four slots -/

/-- The content of slot `i`: the placeholder token while unsubstituted
(`r i = false`), the inserted data path afterwards. -/
def slotElem (dataDir : Str) (r : Fin 4 → Bool) (i : Fin 4) : Str :=
  if r i then dataPath dataDir i else tokOf i

/-- A template state: the four slots in substitution order, joined by
five separator segments. -/
def slotTemplate (p : Fin 5 → Str) (dataDir : Str) (r : Fin 4 → Bool) : Str :=
  p 0 ++ (slotElem dataDir r 0 ++ (p 1 ++ (slotElem dataDir r 1 ++
    (p 2 ++ (slotElem dataDir r 2 ++ (p 3 ++ (slotElem dataDir r 3 ++ p 4)))))))

/-- Separator well-formedness: percent-free and distinct from every
token's middle part. -/
def goodSeps (p : Fin 5 → Str) : Prop :=
  ∀ i : Fin 5, '%' ∉ p i ∧ ∀ X : Fin 4, p i ≠ midOf X

theorem goodPre_entry {X j : Fin 4} (hne : j ≠ X) (dataDir : Str)
    (r : Fin 4 → Bool) (hdd1 : '%' ∉ dataDir) :
    (∃ j' : Fin 4, j' ≠ X ∧ slotElem dataDir r j = tokOf j') ∨
      ('%' ∉ slotElem dataDir r j ∧ '/' ∈ slotElem dataDir r j) := by
  by_cases hr : r j
  · refine Or.inr ?_
    simp only [slotElem, hr, if_true]
    exact ⟨percent_notMem_dataPath hdd1 j, slash_mem_dataPath dataDir j⟩
  · refine Or.inl ⟨j, hne, ?_⟩
    simp [slotElem, hr]

theorem step_at_0 {p : Fin 5 → Str} {dataDir : Str} {r r' : Fin 4 → Bool}
    (hsep : goodSeps p) (_hdd1 : '%' ∉ dataDir) (hdd2 : '$' ∉ dataDir)
    (hX : r 0 = false) (hX' : r' 0 = true)
    (hagree : ∀ j, j ≠ 0 → r' j = r j) :
    jsReplace (slotTemplate p dataDir r) (tokOf 0) (dataPath dataDir 0)
      = slotTemplate p dataDir r' := by
  have he : slotElem dataDir r 0 = tokOf 0 := by simp [slotElem, hX]
  have he' : slotElem dataDir r' 0 = dataPath dataDir 0 := by simp [slotElem, hX']
  have hs1 : slotElem dataDir r' 1 = slotElem dataDir r 1 := by
    simp [slotElem, hagree 1 (by decide)]
  have hs2 : slotElem dataDir r' 2 = slotElem dataDir r 2 := by
    simp [slotElem, hagree 2 (by decide)]
  have hs3 : slotElem dataDir r' 3 = slotElem dataDir r 3 := by
    simp [slotElem, hagree 3 (by decide)]
  have hgood : goodPre 0 [] := by intro pe hpe; cases hpe
  have h := jsReplace_step []
    (p 1 ++ (slotElem dataDir r 1 ++ (p 2 ++ (slotElem dataDir r 2 ++
      (p 3 ++ (slotElem dataDir r 3 ++ p 4))))))
    hgood (hsep 0).1 ((hsep 0).2 0) hdd2
  simp only [ctxCat, List.nil_append] at h
  simp only [slotTemplate, he, he', hs1, hs2, hs3]
  exact h

theorem step_at_1 {p : Fin 5 → Str} {dataDir : Str} {r r' : Fin 4 → Bool}
    (hsep : goodSeps p) (hdd1 : '%' ∉ dataDir) (hdd2 : '$' ∉ dataDir)
    (hX : r 1 = false) (hX' : r' 1 = true)
    (hagree : ∀ j, j ≠ 1 → r' j = r j) :
    jsReplace (slotTemplate p dataDir r) (tokOf 1) (dataPath dataDir 1)
      = slotTemplate p dataDir r' := by
  have he : slotElem dataDir r 1 = tokOf 1 := by simp [slotElem, hX]
  have he' : slotElem dataDir r' 1 = dataPath dataDir 1 := by simp [slotElem, hX']
  have hs0 : slotElem dataDir r' 0 = slotElem dataDir r 0 := by
    simp [slotElem, hagree 0 (by decide)]
  have hs2 : slotElem dataDir r' 2 = slotElem dataDir r 2 := by
    simp [slotElem, hagree 2 (by decide)]
  have hs3 : slotElem dataDir r' 3 = slotElem dataDir r 3 := by
    simp [slotElem, hagree 3 (by decide)]
  have hgood : goodPre 1 [(p 0, slotElem dataDir r 0)] := by
    intro pe hpe
    rcases List.mem_cons.1 hpe with rfl | hpe
    · exact ⟨(hsep 0).1, (hsep 0).2 1, goodPre_entry (by decide) dataDir r hdd1⟩
    · cases hpe
  have h := jsReplace_step [(p 0, slotElem dataDir r 0)]
    (p 2 ++ (slotElem dataDir r 2 ++ (p 3 ++ (slotElem dataDir r 3 ++ p 4))))
    hgood (hsep 1).1 ((hsep 1).2 1) hdd2
  simp only [ctxCat, List.nil_append, List.append_nil, List.append_assoc] at h
  simp only [slotTemplate, he, he', hs0, hs2, hs3]
  exact h

theorem step_at_2 {p : Fin 5 → Str} {dataDir : Str} {r r' : Fin 4 → Bool}
    (hsep : goodSeps p) (hdd1 : '%' ∉ dataDir) (hdd2 : '$' ∉ dataDir)
    (hX : r 2 = false) (hX' : r' 2 = true)
    (hagree : ∀ j, j ≠ 2 → r' j = r j) :
    jsReplace (slotTemplate p dataDir r) (tokOf 2) (dataPath dataDir 2)
      = slotTemplate p dataDir r' := by
  have he : slotElem dataDir r 2 = tokOf 2 := by simp [slotElem, hX]
  have he' : slotElem dataDir r' 2 = dataPath dataDir 2 := by simp [slotElem, hX']
  have hs0 : slotElem dataDir r' 0 = slotElem dataDir r 0 := by
    simp [slotElem, hagree 0 (by decide)]
  have hs1 : slotElem dataDir r' 1 = slotElem dataDir r 1 := by
    simp [slotElem, hagree 1 (by decide)]
  have hs3 : slotElem dataDir r' 3 = slotElem dataDir r 3 := by
    simp [slotElem, hagree 3 (by decide)]
  have hgood : goodPre 2
      [(p 0, slotElem dataDir r 0), (p 1, slotElem dataDir r 1)] := by
    intro pe hpe
    rcases List.mem_cons.1 hpe with rfl | hpe
    · exact ⟨(hsep 0).1, (hsep 0).2 2, goodPre_entry (by decide) dataDir r hdd1⟩
    · rcases List.mem_cons.1 hpe with rfl | hpe
      · exact ⟨(hsep 1).1, (hsep 1).2 2, goodPre_entry (by decide) dataDir r hdd1⟩
      · cases hpe
  have h := jsReplace_step
    [(p 0, slotElem dataDir r 0), (p 1, slotElem dataDir r 1)]
    (p 3 ++ (slotElem dataDir r 3 ++ p 4))
    hgood (hsep 2).1 ((hsep 2).2 2) hdd2
  simp only [ctxCat, List.nil_append, List.append_nil, List.append_assoc] at h
  simp only [slotTemplate, he, he', hs0, hs1, hs3]
  exact h

theorem step_at_3 {p : Fin 5 → Str} {dataDir : Str} {r r' : Fin 4 → Bool}
    (hsep : goodSeps p) (hdd1 : '%' ∉ dataDir) (hdd2 : '$' ∉ dataDir)
    (hX : r 3 = false) (hX' : r' 3 = true)
    (hagree : ∀ j, j ≠ 3 → r' j = r j) :
    jsReplace (slotTemplate p dataDir r) (tokOf 3) (dataPath dataDir 3)
      = slotTemplate p dataDir r' := by
  have he : slotElem dataDir r 3 = tokOf 3 := by simp [slotElem, hX]
  have he' : slotElem dataDir r' 3 = dataPath dataDir 3 := by simp [slotElem, hX']
  have hs0 : slotElem dataDir r' 0 = slotElem dataDir r 0 := by
    simp [slotElem, hagree 0 (by decide)]
  have hs1 : slotElem dataDir r' 1 = slotElem dataDir r 1 := by
    simp [slotElem, hagree 1 (by decide)]
  have hs2 : slotElem dataDir r' 2 = slotElem dataDir r 2 := by
    simp [slotElem, hagree 2 (by decide)]
  have hgood : goodPre 3
      [(p 0, slotElem dataDir r 0), (p 1, slotElem dataDir r 1),
       (p 2, slotElem dataDir r 2)] := by
    intro pe hpe
    rcases List.mem_cons.1 hpe with rfl | hpe
    · exact ⟨(hsep 0).1, (hsep 0).2 3, goodPre_entry (by decide) dataDir r hdd1⟩
    · rcases List.mem_cons.1 hpe with rfl | hpe
      · exact ⟨(hsep 1).1, (hsep 1).2 3, goodPre_entry (by decide) dataDir r hdd1⟩
      · rcases List.mem_cons.1 hpe with rfl | hpe
        · exact ⟨(hsep 2).1, (hsep 2).2 3, goodPre_entry (by decide) dataDir r hdd1⟩
        · cases hpe
  have h := jsReplace_step
    [(p 0, slotElem dataDir r 0), (p 1, slotElem dataDir r 1),
     (p 2, slotElem dataDir r 2)]
    (p 4)
    hgood (hsep 3).1 ((hsep 3).2 3) hdd2
  simp only [ctxCat, List.nil_append, List.append_nil, List.append_assoc] at h
  simp only [slotTemplate, he, he', hs0, hs1, hs2]
  exact h

/-- Substituting any not-yet-substituted token in a well-formed template
state replaces exactly its structural slot. -/
theorem step_at {p : Fin 5 → Str} {dataDir : Str} {r r' : Fin 4 → Bool}
    (hsep : goodSeps p) (hdd1 : '%' ∉ dataDir) (hdd2 : '$' ∉ dataDir)
    (X : Fin 4) (hX : r X = false) (hX' : r' X = true)
    (hagree : ∀ j, j ≠ X → r' j = r j) :
    jsReplace (slotTemplate p dataDir r) (tokOf X) (dataPath dataDir X)
      = slotTemplate p dataDir r' := by
  rcases X with ⟨n, hn⟩
  match n, hn with
  | 0, _ => exact step_at_0 hsep hdd1 hdd2 hX hX' hagree
  | 1, _ => exact step_at_1 hsep hdd1 hdd2 hX hX' hagree
  | 2, _ => exact step_at_2 hsep hdd1 hdd2 hX hX' hagree
  | 3, _ => exact step_at_3 hsep hdd1 hdd2 hX hX' hagree

/-- Apply the four token substitutions in the given order. -/
def applySubs (dataDir : Str) : List (Fin 4) → Str → Str
  | [], s => s
  | i :: rest, s => applySubs dataDir rest (jsReplace s (tokOf i) (dataPath dataDir i))

/-- The program's substitution chain is `applySubs` in order
users, bookings, transactions, parkingSlots. -/
theorem renderConfig_eq_applySubs (dataDir template : Str) :
    renderConfig dataDir template = applySubs dataDir [0, 1, 2, 3] template := rfl

theorem slotTemplate_congr (p : Fin 5 → Str) (dataDir : Str) {r r' : Fin 4 → Bool}
    (h : ∀ i, r i = r' i) : slotTemplate p dataDir r = slotTemplate p dataDir r' := by
  simp only [slotTemplate, slotElem, h]

/-- Performing the substitutions of a pending set in any duplicate-free
order completes the template state. -/
theorem applySubs_complete {p : Fin 5 → Str} {dataDir : Str}
    (hsep : goodSeps p) (hdd1 : '%' ∉ dataDir) (hdd2 : '$' ∉ dataDir) :
    ∀ (order : List (Fin 4)) (r : Fin 4 → Bool), order.Nodup →
      (∀ i, r i = false ↔ i ∈ order) →
      applySubs dataDir order (slotTemplate p dataDir r)
        = slotTemplate p dataDir (fun _ => true)
  | [], r, _, hmem => by
      refine slotTemplate_congr p dataDir fun i => ?_
      rcases hb : r i with _ | _
      · simp at hmem
        exact absurd (hmem i) (by simp [hb])
      · rfl
  | X :: rest, r, hnodup, hmem => by
      have hX : r X = false := (hmem X).2 (List.mem_cons_self X rest)
      have hstep := step_at hsep hdd1 hdd2 X hX
        (show (fun j => if j = X then true else r j) X = true by simp)
        (fun j hj => if_neg hj)
      rw [applySubs, hstep]
      refine applySubs_complete hsep hdd1 hdd2 rest _ (List.Nodup.of_cons hnodup)
        fun i => ?_
      by_cases hi : i = X
      · subst hi
        simp only [if_pos rfl]
        constructor
        · intro h; cases h
        · intro h; exact absurd h (List.Nodup.not_mem hnodup)
      · rw [if_neg hi, hmem i]
        simp [hi]

theorem mem_order_univ : ∀ i : Fin 4, i ∈ ([0, 1, 2, 3] : List (Fin 4)) := by decide

/-- A fully substituted well-formed template state is percent-free. -/
theorem percent_notMem_done {p : Fin 5 → Str} {dataDir : Str}
    (hsep : ∀ i, '%' ∉ p i) (hdd1 : '%' ∉ dataDir) :
    '%' ∉ slotTemplate p dataDir (fun _ => true) := by
  intro h
  simp only [slotTemplate, slotElem, if_true, List.mem_append] at h
  rcases h with h | h | h | h | h | h | h | h | h
  exacts [hsep 0 h, percent_notMem_dataPath hdd1 0 h, hsep 1 h,
    percent_notMem_dataPath hdd1 1 h, hsep 2 h, percent_notMem_dataPath hdd1 2 h,
    hsep 3 h, percent_notMem_dataPath hdd1 3 h, hsep 4 h]

/-- Each substituted path occurs in the fully substituted template state. -/
theorem dataPath_infix_done (p : Fin 5 → Str) (dataDir : Str) :
    ∀ X : Fin 4, dataPath dataDir X <:+: slotTemplate p dataDir (fun _ => true) := by
  intro X
  rcases X with ⟨n, hn⟩
  match n, hn with
  | 0, _ =>
      refine ⟨p 0, p 1 ++ (dataPath dataDir 1 ++ (p 2 ++ (dataPath dataDir 2 ++
        (p 3 ++ (dataPath dataDir 3 ++ p 4))))), ?_⟩
      simp [slotTemplate, slotElem, List.append_assoc]
  | 1, _ =>
      refine ⟨p 0 ++ dataPath dataDir 0 ++ p 1,
        p 2 ++ (dataPath dataDir 2 ++ (p 3 ++ (dataPath dataDir 3 ++ p 4))), ?_⟩
      simp [slotTemplate, slotElem, List.append_assoc]
  | 2, _ =>
      refine ⟨p 0 ++ dataPath dataDir 0 ++ p 1 ++ dataPath dataDir 1 ++ p 2,
        p 3 ++ (dataPath dataDir 3 ++ p 4), ?_⟩
      simp [slotTemplate, slotElem, List.append_assoc]
  | 3, _ =>
      refine ⟨p 0 ++ dataPath dataDir 0 ++ p 1 ++ dataPath dataDir 1 ++ p 2 ++
        dataPath dataDir 2 ++ p 3, p 4, ?_⟩
      simp [slotTemplate, slotElem, List.append_assoc]

/-- Rendering a well-formed canonical template completes all four slots. -/
theorem renderConfig_slotTemplate {p : Fin 5 → Str} {dataDir : Str}
    (hsep : goodSeps p) (hdd1 : '%' ∉ dataDir) (hdd2 : '$' ∉ dataDir) :
    renderConfig dataDir (slotTemplate p dataDir (fun _ => false))
      = slotTemplate p dataDir (fun _ => true) := by
  rw [renderConfig_eq_applySubs]
  exact applySubs_complete hsep hdd1 hdd2 [0, 1, 2, 3] _ (by decide)
    fun i => ⟨fun _ => mem_order_univ i, fun _ => rfl⟩

/-! ### Claims C1, C2 -/

/-- C1, counterexample: the claim quantifies over every template,
"including templates in which a placeholder token occurs more than
once"; but JavaScript `String.replace` with a string pattern replaces
only the first occurrence, so for the template consisting of
`%%user.file.path%%` twice (and data directory `/w`) the rendered config
still contains one occurrence of the token. -/
theorem C1_counterexample :
    countOccur userToken (renderConfig "/w".toList (userToken ++ userToken)) = 1 := by
  decide

/-- C1 (amended): for every template in which each of the four
placeholder tokens occurs exactly once, in substitution order, separated
by percent-free segments that differ from the tokens' middle parts, and
for a data directory whose path contains no `%` and no `$`, the rendered
config contains zero occurrences of each of the four placeholder tokens
and contains the four forward-slash-normalized data-file paths. -/
theorem C1_render_clears_tokens_and_contains_paths
    (p : Fin 5 → Str) (dataDir : Str)
    (hsep : goodSeps p) (hdd1 : '%' ∉ dataDir) (hdd2 : '$' ∉ dataDir) :
    (∀ X : Fin 4, countOccur (tokOf X)
        (renderConfig dataDir (slotTemplate p dataDir (fun _ => false))) = 0) ∧
    (∀ X : Fin 4, dataPath dataDir X <:+:
        renderConfig dataDir (slotTemplate p dataDir (fun _ => false))) := by
  rw [renderConfig_slotTemplate hsep hdd1 hdd2]
  constructor
  · intro X
    rw [tokOf_decomp X]
    exact countOccur_eq_zero_of_notMem _ fun c hc hcp =>
      percent_notMem_done (fun i => (hsep i).1) hdd1 (hcp ▸ hc)
  · exact dataPath_infix_done p dataDir

/-- Witness for C1 (amended), at empty separators and data directory
`/w`. -/
theorem C1_witness :
    countOccur (tokOf 0)
      (renderConfig "/w".toList
        (slotTemplate (fun _ => []) "/w".toList (fun _ => false))) = 0 :=
  (C1_render_clears_tokens_and_contains_paths (fun _ => []) "/w".toList
    (fun i => ⟨by simp, fun X h => midOf_ne_nil X h.symm⟩) (by decide) (by decide)).1 0

/-- C2, counterexample: substitution is not order-independent.  In the
template `%%user.file.path%%booking.file.path%%` the booking token
occurs, overlapping the user token; substituting bookings before users
yields a different rendered output than the program's order. -/
theorem C2_counterexample :
    ([1, 0, 2, 3] : List (Fin 4)).Perm [0, 1, 2, 3] ∧
    applySubs "/w".toList [1, 0, 2, 3] (userToken ++ "booking.file.path%%".toList)
      ≠ renderConfig "/w".toList (userToken ++ "booking.file.path%%".toList) := by
  decide

/-- C2 (amended): for every template in which the four tokens occur
exactly once each, in substitution order, separated by percent-free
segments differing from the tokens' middle parts, and a data directory
free of `%` and `$`, applying the four substitutions in any order (any
permutation of the program's order) yields the same rendered output as
the program's order users, bookings, transactions, parkingSlots. -/
theorem C2_order_independent (p : Fin 5 → Str) (dataDir : Str)
    (hsep : goodSeps p) (hdd1 : '%' ∉ dataDir) (hdd2 : '$' ∉ dataDir)
    (order : List (Fin 4)) (hperm : order.Perm [0, 1, 2, 3]) :
    applySubs dataDir order (slotTemplate p dataDir (fun _ => false))
      = renderConfig dataDir (slotTemplate p dataDir (fun _ => false)) := by
  rw [renderConfig_eq_applySubs]
  rw [applySubs_complete hsep hdd1 hdd2 order _ (hperm.nodup_iff.2 (by decide))
      (fun i => ⟨fun _ => hperm.mem_iff.2 (mem_order_univ i), fun _ => rfl⟩),
    applySubs_complete hsep hdd1 hdd2 [0, 1, 2, 3] _ (by decide)
      (fun i => ⟨fun _ => mem_order_univ i, fun _ => rfl⟩)]

/-- Witness for C2 (amended), at empty separators, data directory `/w`,
and the reversed substitution order. -/
theorem C2_witness :
    applySubs "/w".toList [3, 2, 1, 0]
        (slotTemplate (fun _ => []) "/w".toList (fun _ => false))
      = renderConfig "/w".toList
        (slotTemplate (fun _ => []) "/w".toList (fun _ => false)) :=
  C2_order_independent (fun _ => []) "/w".toList
    (fun i => ⟨by simp, fun X h => midOf_ne_nil X h.symm⟩)
    (by decide) (by decide) [3, 2, 1, 0] (by decide)

/-! ### Claims C7, C10 -/

/-- A placeholder-like token: `%%`, a nonempty percent-free middle,
`%%`. -/
def placeholderLike (u : Str) : Prop :=
  ∃ m, m ≠ [] ∧ '%' ∉ m ∧ u = ['%', '%'] ++ m ++ ['%', '%']

/-- C7, counterexample: the unrecognized placeholder-like token
`%%other.x%%` occurs in the template `%%user.file.path%%other.x%%`
(sharing its leading `%%` with the user token's trailing `%%`), but
rendering destroys it, so rendering does not leave every unrecognized
token unchanged. -/
theorem C7_counterexample :
    placeholderLike "%%other.x%%".toList ∧
    (∀ X : Fin 4, "%%other.x%%".toList ≠ tokOf X) ∧
    "%%other.x%%".toList <:+: (userToken ++ "other.x%%".toList) ∧
    ¬ "%%other.x%%".toList <:+:
        renderConfig "/w".toList (userToken ++ "other.x%%".toList) := by
  refine ⟨⟨"other.x".toList, by decide, by decide, by decide⟩, by decide, ?_, ?_⟩
  · decide
  · decide

/-- C7 (amended): for every template in which none of the four
recognized tokens occurs, rendering succeeds and returns the template
unchanged — in particular every unrecognized placeholder-like token it
contains is left unchanged in the output; and substituting a token
absent from a string is always a no-op. -/
theorem C7_unrecognized_token_preserved (template u dataDir : Str)
    (hno : ∀ X : Fin 4, countOccur (tokOf X) template = 0) :
    (renderConfig dataDir template = template ∧
      (u <:+: template → u <:+: renderConfig dataDir template)) ∧
    ∀ s pat repl : Str, ¬ pat <:+: s → jsReplace s pat repl = s := by
  have h0 : countOccur userToken template = 0 := hno 0
  have h1 : countOccur bookingToken template = 0 := hno 1
  have h2 : countOccur transactionToken template = 0 := hno 2
  have h3 : countOccur slotsToken template = 0 := hno 3
  have hid : renderConfig dataDir template = template := by
    unfold renderConfig
    rw [jsReplace_no_occurrence (not_infix_of_countOccur_eq_zero h0),
      jsReplace_no_occurrence (not_infix_of_countOccur_eq_zero h1),
      jsReplace_no_occurrence (not_infix_of_countOccur_eq_zero h2),
      jsReplace_no_occurrence (not_infix_of_countOccur_eq_zero h3)]
  exact ⟨⟨hid, fun hu => by rw [hid]; exact hu⟩,
    fun s pat repl h => jsReplace_no_occurrence h⟩

/-- Witness for C7 (amended), at a concrete template containing only the
unrecognized token `%%other.x%%`. -/
theorem C7_witness :
    (renderConfig "/w".toList "a=%%other.x%%".toList = "a=%%other.x%%".toList ∧
      ("%%other.x%%".toList <:+: "a=%%other.x%%".toList →
        "%%other.x%%".toList <:+:
          renderConfig "/w".toList "a=%%other.x%%".toList)) ∧
    ∀ s pat repl : Str, ¬ pat <:+: s → jsReplace s pat repl = s :=
  C7_unrecognized_token_preserved "a=%%other.x%%".toList "%%other.x%%".toList
    "/w".toList (by decide)

/-- C10: there is a project name containing the JavaScript replacement
pattern `$&` — here `a$&b` under working directory `/w` — for which the
rendered config does not contain the computed forward-slash-normalized
users-file path verbatim: `String.replace` expands the dollar sequence,
re-inserting the matched token. -/
theorem C10_dollar_sequences_expand :
    ∃ projectName : Str,
      countOccur
        (dataPath (pathJoin (targetDirOf "/w".toList projectName) "data".toList) 0)
        (renderConfig (pathJoin (targetDirOf "/w".toList projectName) "data".toList)
          "u=%%user.file.path%%".toList) = 0 ∧
      renderConfig (pathJoin (targetDirOf "/w".toList projectName) "data".toList)
          "u=%%user.file.path%%".toList
        = "u=/w/a%%user.file.path%%b/data/users.json".toList :=
  ⟨"a$&b".toList, by decide, by decide⟩

/-! ### Path segmentation lemmas (for C9 and the filesystem model) -/

theorem segsAux_slash_end : ∀ (a acc : Str), segsAux (a ++ ['/']) acc = segsAux a acc
  | [], acc => by
      by_cases h : acc = []
      · simp [segsAux, h]
      · simp [segsAux, h]
  | c :: a', acc => by
      by_cases hc : c = '/'
      · subst hc
        by_cases h : acc = []
        · simp [segsAux, h, segsAux_slash_end a' []]
        · simp [segsAux, h, segsAux_slash_end a' []]
      · simp [segsAux, hc, segsAux_slash_end a' (c :: acc)]

theorem segsAux_append_slash : ∀ (a b acc : Str),
    segsAux (a ++ '/' :: b) acc = segsAux (a ++ ['/']) acc ++ segsAux b []
  | [], b, acc => by
      by_cases h : acc = []
      · simp [segsAux, h]
      · simp [segsAux, h]
  | c :: a', b, acc => by
      by_cases hc : c = '/'
      · subst hc
        by_cases h : acc = []
        · simp [segsAux, h, segsAux_append_slash a' b []]
        · simp [segsAux, h, segsAux_append_slash a' b []]
      · simp [segsAux, hc, segsAux_append_slash a' b (c :: acc)]

/-- Splitting distributes over a slash-joined concatenation. -/
theorem segs_append_slash (a b : Str) : segs (a ++ '/' :: b) = segs a ++ segs b := by
  unfold segs
  rw [segsAux_append_slash, segsAux_slash_end]

theorem segsAux_no_slash : ∀ (s acc : Str), '/' ∉ s →
    segsAux s acc = if acc.reverse ++ s = [] then [] else [acc.reverse ++ s]
  | [], acc, _ => by
      by_cases h : acc = []
      · simp [segsAux, h]
      · simp [segsAux, h]
  | c :: s', acc, hs => by
      have hc : ¬ c = '/' := fun hx => hs (hx ▸ List.mem_cons_self c s')
      have hs' : '/' ∉ s' := fun hx => hs (List.mem_cons_of_mem _ hx)
      rw [segsAux.eq_def]
      simp only [hc, if_false]
      rw [segsAux_no_slash s' (c :: acc) hs']
      simp

/-- A slash-free nonempty string is a single segment. -/
theorem segs_single {s : Str} (hs : '/' ∉ s) (hne : s ≠ []) : segs s = [s] := by
  unfold segs
  rw [segsAux_no_slash s [] hs]
  simp [hne]

/-- Every produced segment is nonempty and slash-free. -/
theorem segs_mem : ∀ (p acc : Str), '/' ∉ acc →
    ∀ s ∈ segsAux p acc, s ≠ [] ∧ '/' ∉ s
  | [], acc, hacc => by
      by_cases h : acc = []
      · simp [segsAux, h]
      · simp only [segsAux, h, if_false]
        intro s hs
        rcases List.mem_singleton.1 hs with rfl
        refine ⟨fun hx => h (by simpa using congrArg List.reverse hx), ?_⟩
        simp only [List.mem_reverse]
        exact hacc
  | c :: p', acc, hacc => by
      by_cases hc : c = '/'
      · subst hc
        by_cases h : acc = []
        · simp only [segsAux, h, if_true]
          exact segs_mem p' [] (by simp)
        · simp only [segsAux, h, if_false]
          intro s hs
          rcases List.mem_cons.1 hs with rfl | hs
          · refine ⟨fun hx => h (by simpa using congrArg List.reverse hx), ?_⟩
            simp only [List.mem_reverse]
            exact hacc
          · exact segs_mem p' [] (by simp) s hs
      · simp only [segsAux, hc, if_false]
        intro s hs
        refine segs_mem p' (c :: acc) ?_ s hs
        intro hx
        rcases List.mem_cons.1 hx with hx | hx
        exacts [hc hx.symm, hacc hx]

theorem catSegs_append : ∀ A B : List Str, catSegs (A ++ B) = catSegs A ++ catSegs B
  | [], _ => rfl
  | s :: A', B => by
      simp [catSegs, catSegs_append A' B]

/-- Splitting a slash-joined nonempty segment list recovers it. -/
theorem segs_catSegs : ∀ S : List Str, (∀ s ∈ S, s ≠ [] ∧ '/' ∉ s) →
    segs (catSegs S) = S
  | [], _ => rfl
  | s :: rest, hS => by
      have hs := hS s (List.mem_cons_self _ _)
      have hrest : ∀ t ∈ rest, t ≠ [] ∧ '/' ∉ t :=
        fun t ht => hS t (List.mem_cons_of_mem _ ht)
      show segs ('/' :: (s ++ catSegs rest)) = s :: rest
      have hslash : segs ('/' :: (s ++ catSegs rest)) = segs (s ++ catSegs rest) := by
        have := segs_append_slash [] (s ++ catSegs rest)
        simpa using this
      rw [hslash]
      cases rest with
      | nil =>
          simpa [catSegs] using segs_single hs.2 hs.1
      | cons t rest' =>
          show segs (s ++ '/' :: (t ++ catSegs rest')) = s :: t :: rest'
          rw [segs_append_slash, segs_single hs.2 hs.1]
          have := segs_catSegs (t :: rest') hrest
          simpa [catSegs] using this

theorem resolveSegs_no_dots : ∀ (l : List Str) (stack : List Str),
    (∀ s ∈ l, s ≠ ['.'] ∧ s ≠ ['.', '.']) →
    resolveSegs stack l = stack.reverse ++ l
  | [], stack, _ => by simp [resolveSegs]
  | s :: l', stack, hl => by
      have hs := hl s (List.mem_cons_self _ _)
      have hl' : ∀ t ∈ l', t ≠ ['.'] ∧ t ≠ ['.', '.'] :=
        fun t ht => hl t (List.mem_cons_of_mem _ ht)
      rw [resolveSegs.eq_def]
      simp only [hs.1, hs.2, if_false]
      rw [resolveSegs_no_dots l' (s :: stack) hl']
      simp

theorem catSegs_getLast?_ne_slash : ∀ S : List Str,
    (∀ s ∈ S, s ≠ [] ∧ '/' ∉ s) → S ≠ [] →
    (catSegs S).getLast? ≠ some '/'
  | [], _, hne => absurd rfl hne
  | s :: rest, hS, _ => by
      have hs := hS s (List.mem_cons_self _ _)
      cases rest with
      | nil =>
          show (('/' :: (s ++ catSegs [])).getLast?) ≠ some '/'
          have hsh : ('/' :: (s ++ catSegs [])) = ['/'] ++ s := by
            simp [catSegs]
          rw [hsh, List.getLast?_append_of_ne_nil ['/'] hs.1]
          intro h
          exact hs.2 (List.mem_of_mem_getLast? h)
      | cons t rest' =>
          have hrest : ∀ u ∈ t :: rest', u ≠ [] ∧ '/' ∉ u :=
            fun u hu => hS u (List.mem_cons_of_mem _ hu)
          have ih := catSegs_getLast?_ne_slash (t :: rest') hrest (by simp)
          have hne2 : catSegs (t :: rest') ≠ [] := by simp [catSegs]
          show (('/' :: (s ++ catSegs (t :: rest'))).getLast?) ≠ some '/'
          have hsh : ('/' :: (s ++ catSegs (t :: rest')))
              = (('/' :: s) ++ catSegs (t :: rest')) := by simp
          rw [hsh, List.getLast?_append_of_ne_nil _ hne2]
          exact ih

/-! ### Claim C9 -/

/-- C9, counterexample: the project names `..` and `.` contain no path
separator, yet `path.resolve` collapses them, so the computed target
directory is not the working directory joined with the name. -/
theorem C9_counterexample :
    ('/' ∉ "..".toList ∧
      targetDirOf "/home/user".toList "..".toList
        ≠ pathJoin "/home/user".toList "..".toList) ∧
    ('/' ∉ ".".toList ∧
      targetDirOf "/home/user".toList ".".toList
        ≠ pathJoin "/home/user".toList ".".toList) := by
  decide

/-- C9 (amended): for every project name input without a path-separator
character and distinct from the special segments `.` and `..`, the
computed TargetDirectory equals the current working directory joined
with the effective name (the default `park-me-app` when the prompt is
left blank), provided the working directory is a canonical absolute path
without `.`/`..` segments. -/
theorem C9_targetDir_eq_join (cwd input : Str)
    (hcanon : joinSegs (segs cwd) = cwd)
    (hdots : ∀ s ∈ segs cwd, s ≠ ['.'] ∧ s ≠ ['.', '.'])
    (hin1 : '/' ∉ input) (hin2 : input ≠ ['.']) (hin3 : input ≠ ['.', '.']) :
    targetDirOf cwd input = pathJoin cwd (effectiveName input) := by
  set n := effectiveName input with hn
  have hn1 : '/' ∉ n := by
    rw [hn]
    unfold effectiveName
    split
    · decide
    · exact hin1
  have hnne : n ≠ [] := by
    rw [hn]
    unfold effectiveName
    split
    · decide
    · assumption
  have hn2 : n ≠ ['.'] := by
    rw [hn]
    unfold effectiveName
    split
    · decide
    · exact hin2
  have hn3 : n ≠ ['.', '.'] := by
    rw [hn]
    unfold effectiveName
    split
    · decide
    · exact hin3
  have hhead : n.head? ≠ some '/' := by
    intro h
    exact hn1 (List.mem_of_mem_head? h)
  have hstart : targetDirOf cwd input
      = joinSegs (resolveSegs [] (segs (cwd ++ '/' :: n))) := by
    simp only [targetDirOf, pathResolve]
    rw [← hn, if_neg hhead]
  rw [hstart, segs_append_slash, segs_single hn1 hnne]
  rw [resolveSegs_no_dots _ [] ?hdots2]
  case hdots2 =>
    intro s hs
    rcases List.mem_append.1 hs with hs | hs
    · exact hdots s hs
    · rcases List.mem_singleton.1 hs with rfl
      exact ⟨hn2, hn3⟩
  rw [List.reverse_nil, List.nil_append]
  cases hS : segs cwd with
  | nil =>
      have hcwd : cwd = ['/'] := by
        rw [← hcanon, hS]
        rfl
      rw [List.nil_append]
      unfold joinSegs pathJoin
      rw [hcwd]
      simp [catSegs]
  | cons s rest =>
      have hmem : ∀ t ∈ segs cwd, t ≠ [] ∧ '/' ∉ t := segs_mem cwd [] (by simp)
      have hcwd : cwd = catSegs (s :: rest) := by
        rw [← hcanon, hS]
        unfold joinSegs
        rw [if_neg (by simp)]
      have hlast : cwd.getLast? ≠ some '/' := by
        rw [hcwd]
        exact catSegs_getLast?_ne_slash (s :: rest)
          (fun u hu => hmem u (hS ▸ hu)) (by simp)
      unfold joinSegs pathJoin
      rw [if_neg (by simp), if_neg hlast, catSegs_append, hcwd]
      simp [catSegs]

/-- Witness for C9 (amended): blank input under `/home/user` resolves to
the default-name join. -/
theorem C9_witness :
    targetDirOf "/home/user".toList []
      = pathJoin "/home/user".toList (effectiveName []) :=
  C9_targetDir_eq_join "/home/user".toList [] (by decide) (by decide)
    (by decide) (by decide) (by decide)

/-! ### Derived per-run paths and filesystem lemmas -/

/-- The computed target directory of a run. -/
def targetDirE (env : Env) : Str := targetDirOf env.cwd env.nameInput

/-- The `app` subdirectory of a run. -/
def appDirE (env : Env) : Str := pathJoin (targetDirE env) "app".toList

/-- The `data` subdirectory of a run. -/
def dataDirE (env : Env) : Str := pathJoin (targetDirE env) "data".toList

/-- The rendered config's absolute path,
`<target>/app/src/main/resources/config.properties`. -/
def configPathE (env : Env) : Str := pathJoin (appDirE env) configRelPath

/-- `p` lies strictly below directory `t`. -/
def strictUnder (t p : Str) : Prop := underDir t p = true ∧ segs p ≠ segs t

/-- Splitting distributes over `pathJoin`. -/
theorem segs_pathJoin (a b : Str) : segs (pathJoin a b) = segs a ++ segs b := by
  unfold pathJoin
  split
  · rename_i h
    obtain ⟨a', rfl⟩ := List.getLast?_eq_some_iff.1 h
    have h1 : a' ++ ['/'] ++ b = a' ++ '/' :: b := by simp
    have h2 : segs (a' ++ ['/']) = segs a' := by
      have h3 := segs_append_slash a' []
      simpa [segs, segsAux] using h3
    rw [h1, segs_append_slash, h2]
  · exact segs_append_slash a b

theorem segs_fixed_name : segs "app".toList = ["app".toList] ∧
    segs "data".toList = ["data".toList] ∧
    segs configRelPath = ["src".toList, "main".toList, "resources".toList,
      "config.properties".toList] := by decide

/-- Keys joined below a directory lie under it. -/
theorem underDir_pathJoin (t b : Str) : underDir t (pathJoin t b) = true := by
  unfold underDir
  rw [segs_pathJoin]
  exact List.isPrefixOf_iff_prefix.2 (List.prefix_append _ _)

theorem underDir_trans_pathJoin (t b c : Str) :
    underDir t (pathJoin (pathJoin t b) c) = true := by
  unfold underDir
  rw [segs_pathJoin, segs_pathJoin, List.append_assoc]
  exact List.isPrefixOf_iff_prefix.2 (List.prefix_append _ _)

/-- Two single-segment names joined to the same directory give distinct
paths. -/
theorem pathJoin_ne_of_name_ne {t b c : Str} (hb : '/' ∉ b) (hbne : b ≠ [])
    (hc : '/' ∉ c) (hcne : c ≠ []) (hne : b ≠ c) :
    pathJoin t b ≠ pathJoin t c := by
  intro h
  have hs := congrArg segs h
  rw [segs_pathJoin, segs_pathJoin, segs_single hb hbne, segs_single hc hcne] at hs
  have h2 := List.append_cancel_left hs
  simp at h2
  exact hne h2

/-- Joining a path whose name splits into at least one segment moves
strictly deeper. -/
theorem pathJoin_ne_self {t b : Str} (hb : segs b ≠ []) : pathJoin t b ≠ t := by
  intro h
  have hs := congrArg segs h
  rw [segs_pathJoin] at hs
  have h2 : segs t ++ segs b = segs t ++ [] := by simpa using hs
  exact hb (List.append_cancel_left h2)

theorem lookup_cons_ne {q p : Str} {e : Entry} (fs : FS) (hne : q ≠ p) :
    List.lookup p ((q, e) :: fs) = List.lookup p fs := by
  have hb : (p == q) = false := beq_eq_false_iff_ne.2 (Ne.symm hne)
  simp [List.lookup, hb]

theorem lookup_cons_self {p : Str} {e : Entry} (fs : FS) :
    List.lookup p ((p, e) :: fs) = some e := by
  simp [List.lookup]

/-- Removal empties everything at or below the removed directory. -/
theorem lookup_removeDir {t p : Str} (h : underDir t p = true) :
    ∀ fs : FS, List.lookup p (applyEv fs (.removeDir t)) = none
  | [] => rfl
  | (q, e) :: fs' => by
      have ih := lookup_removeDir h fs'
      show List.lookup p
        (List.filter (fun pe => !underDir t pe.1) ((q, e) :: fs')) = none
      rw [List.filter_cons]
      by_cases hq : underDir t q = true
      · rw [if_neg (by simp [hq])]
        exact ih
      · have hqf : underDir t q = false := by
          revert hq; cases underDir t q <;> simp
        have hpq : q ≠ p := by
          intro hx
          rw [hx, h] at hqf
          cases hqf
        rw [if_pos (by simp [hqf])]
        rw [lookup_cons_ne _ hpq]
        exact ih

/-- `ensureDir` leaves other keys untouched. -/
theorem lookup_ensureDir_ne {q p : Str} (fs : FS) (hne : q ≠ p) :
    List.lookup p (applyEv fs (.ensureDir q)) = List.lookup p fs := by
  show List.lookup p
    (if (List.lookup q fs).isSome then fs else (q, Entry.dir) :: fs)
      = List.lookup p fs
  split
  · rfl
  · exact lookup_cons_ne fs hne

/-- The clone populates only keys under its destination. -/
theorem lookup_cloneInto_ne {dst p : Str} :
    ∀ (tree : List (Str × Str)) (fs : FS),
      (∀ rc ∈ tree, pathJoin dst rc.1 ≠ p) →
      List.lookup p (applyEv fs (.cloneInto dst tree)) = List.lookup p fs
  | [], fs, _ => rfl
  | rc :: tree', fs, h => by
      have h1 : pathJoin dst rc.1 ≠ p := h rc (List.mem_cons_self _ _)
      have h2 : ∀ rc' ∈ tree', pathJoin dst rc'.1 ≠ p :=
        fun rc' hm => h rc' (List.mem_cons_of_mem _ hm)
      show List.lookup p (applyEv ((pathJoin dst rc.1, Entry.file rc.2) :: fs)
        (.cloneInto dst tree')) = List.lookup p fs
      rw [lookup_cloneInto_ne tree' _ h2, lookup_cons_ne fs h1]

/-! ### Claims C4, C5 -/

/-- C4: if TargetDirectory exists and the user declines the overwrite
confirmation, the process exits 0, performs no filesystem event, and the
filesystem is byte-for-byte unchanged. -/
theorem C4_decline_leaves_fs_unchanged (env : Env)
    (hex : (env.fs0.lookup (targetDirE env)).isSome = true)
    (hans : env.overwriteAnswer = false) :
    (runPipeline env).exitCode = 0 ∧ (runPipeline env).trace = [] ∧
      finalFS env = env.fs0 := by
  have hrun : runPipeline env =
      { exitCode := 0, trace := [], errorPrinted := false
        warnMsgs := [], doneLogged := false } := by
    unfold runPipeline
    rw [show targetDirOf env.cwd env.nameInput = targetDirE env from rfl]
    simp [hex, hans]
  refine ⟨by rw [hrun], by rw [hrun], ?_⟩
  unfold finalFS
  rw [hrun]
  rfl

/-- A concrete environment used to instantiate the pipeline theorems. -/
def sampleEnv : Env :=
  { cwd := "/h".toList
    nameInput := "p".toList
    fs0 := []
    overwriteAnswer := false
    cloneOk := true
    cloneTree := [("README.md".toList, "r".toList)]
    tplUsers := "[u]".toList
    tplBookings := "[b]".toList
    tplTransactions := "[t]".toList
    tplSlots := "[s]".toList
    dataOk := true
    dataCopiesDone := 0
    configReadOk := true
    configTemplate := "u=%%user.file.path%%".toList
    configWriteOk := true
    installOk := true
    isWindows := false
    tomcatOk := true }

/-- `sampleEnv` with the target directory already present on disk. -/
def sampleEnvExisting : Env :=
  { sampleEnv with fs0 := [("/h/p".toList, Entry.dir)] }

/-- `sampleEnvExisting` with the overwrite confirmation accepted. -/
def sampleEnvOverwrite : Env :=
  { sampleEnvExisting with overwriteAnswer := true }

/-- Witness for C4 at a concrete environment whose target directory
already exists. -/
theorem C4_witness :
    (runPipeline sampleEnvExisting).exitCode = 0 ∧
    (runPipeline sampleEnvExisting).trace = [] ∧
    finalFS sampleEnvExisting = sampleEnvExisting.fs0 :=
  C4_decline_leaves_fs_unchanged sampleEnvExisting (by decide) rfl

/-- Events that create or modify filesystem content (everything except
the recursive removal). -/
def isWriteEv : Ev → Bool
  | .removeDir _ => false
  | _ => true

/-- C5: if TargetDirectory exists and the overwrite is accepted, the
recursive removal of TargetDirectory is the first event of the run: no
file or directory is written at an earlier position of the trace. -/
theorem C5_overwrite_removes_before_writes (env : Env)
    (hex : (env.fs0.lookup (targetDirE env)).isSome = true)
    (hans : env.overwriteAnswer = true) :
    (runPipeline env).trace.head? = some (Ev.removeDir (targetDirE env)) ∧
    ∀ k ev, (runPipeline env).trace.get? k = some ev → isWriteEv ev = true →
      k ≠ 0 := by
  have hshape : ∃ rest, (runPipeline env).trace
      = Ev.removeDir (targetDirE env) :: rest := by
    unfold runPipeline
    rw [show targetDirOf env.cwd env.nameInput = targetDirE env from rfl]
    simp only [hex, hans, Bool.not_true, Bool.and_false, Bool.false_eq_true,
      if_false, if_true]
    split
    · exact ⟨_, rfl⟩
    · split
      · exact ⟨_, rfl⟩
      · split
        · exact ⟨_, rfl⟩
        · split
          · exact ⟨_, rfl⟩
          · split
            · exact ⟨_, rfl⟩
            · exact ⟨_, rfl⟩
  obtain ⟨rest, hrest⟩ := hshape
  constructor
  · rw [hrest]; rfl
  · intro k ev hget hw hk
    subst hk
    rw [hrest] at hget
    have h2 : Ev.removeDir (targetDirE env) = ev := by simpa using hget
    rw [← h2] at hw
    simp [isWriteEv] at hw

/-- Witness for C5 at a concrete environment accepting the overwrite. -/
theorem C5_witness :
    (runPipeline sampleEnvOverwrite).trace.head?
      = some (Ev.removeDir (targetDirE sampleEnvOverwrite)) ∧
    ∀ k ev, (runPipeline sampleEnvOverwrite).trace.get? k = some ev →
      isWriteEv ev = true → k ≠ 0 :=
  C5_overwrite_removes_before_writes sampleEnvOverwrite (by decide) rfl

/-! ### Claim C3 -/

theorem appDir_ne_dataDir (env : Env) : appDirE env ≠ dataDirE env :=
  pathJoin_ne_of_name_ne (by decide) (by decide) (by decide) (by decide)
    (by decide)

theorem appDir_ne_configPath (env : Env) : appDirE env ≠ configPathE env :=
  Ne.symm (pathJoin_ne_self (by decide))

/-- C3: when the clone step fails (and the run got past the overwrite
gate), the process prints the error and exits 1, and at termination
neither DataDirectory nor the rendered config file exists — whatever was
under the target directory beforehand has been removed, and nothing of
the run created them. -/
theorem C3_clone_failure_aborts (env : Env)
    (hgate : env.overwriteAnswer = true ∨ env.fs0.lookup (targetDirE env) = none)
    (hclone : env.cloneOk = false)
    (hwf : env.fs0.lookup (targetDirE env) = none →
      env.fs0.lookup (dataDirE env) = none ∧
        env.fs0.lookup (configPathE env) = none) :
    (runPipeline env).exitCode = 1 ∧ (runPipeline env).errorPrinted = true ∧
    (finalFS env).lookup (dataDirE env) = none ∧
    (finalFS env).lookup (configPathE env) = none := by
  cases hde : (env.fs0.lookup (targetDirE env)).isSome with
  | false =>
      have hnone : env.fs0.lookup (targetDirE env) = none := by
        cases hl : env.fs0.lookup (targetDirE env)
        · rfl
        · rw [hl] at hde; cases hde
      have hrun : runPipeline env =
          { exitCode := 1, trace := [Ev.ensureDir (appDirE env)]
            errorPrinted := true, warnMsgs := [], doneLogged := false } := by
        unfold runPipeline
        rw [show targetDirOf env.cwd env.nameInput = targetDirE env from rfl]
        simp [hde, hclone, appDirE]
      refine ⟨by rw [hrun], by rw [hrun], ?_, ?_⟩
      · unfold finalFS
        rw [hrun]
        show List.lookup (dataDirE env)
          (applyEv env.fs0 (.ensureDir (appDirE env))) = none
        rw [lookup_ensureDir_ne _ (appDir_ne_dataDir env)]
        exact (hwf hnone).1
      · unfold finalFS
        rw [hrun]
        show List.lookup (configPathE env)
          (applyEv env.fs0 (.ensureDir (appDirE env))) = none
        rw [lookup_ensureDir_ne _ (appDir_ne_configPath env)]
        exact (hwf hnone).2
  | true =>
      have hans : env.overwriteAnswer = true := by
        rcases hgate with h | h
        · exact h
        · rw [h] at hde; cases hde
      have hrun : runPipeline env =
          { exitCode := 1
            trace := [Ev.removeDir (targetDirE env), Ev.ensureDir (appDirE env)]
            errorPrinted := true, warnMsgs := [], doneLogged := false } := by
        unfold runPipeline
        rw [show targetDirOf env.cwd env.nameInput = targetDirE env from rfl]
        simp [hde, hans, hclone, appDirE]
      refine ⟨by rw [hrun], by rw [hrun], ?_, ?_⟩
      · unfold finalFS
        rw [hrun]
        show List.lookup (dataDirE env)
          (applyEv (applyEv env.fs0 (.removeDir (targetDirE env)))
            (.ensureDir (appDirE env))) = none
        rw [lookup_ensureDir_ne _ (appDir_ne_dataDir env)]
        exact lookup_removeDir (underDir_pathJoin _ _) _
      · unfold finalFS
        rw [hrun]
        show List.lookup (configPathE env)
          (applyEv (applyEv env.fs0 (.removeDir (targetDirE env)))
            (.ensureDir (appDirE env))) = none
        rw [lookup_ensureDir_ne _ (appDir_ne_configPath env)]
        exact lookup_removeDir (underDir_trans_pathJoin _ _ _) _

/-- Witness for C3 at a concrete environment whose clone fails. -/
theorem C3_witness :
    (runPipeline { sampleEnv with cloneOk := false }).exitCode = 1 ∧
    (runPipeline { sampleEnv with cloneOk := false }).errorPrinted = true ∧
    (finalFS { sampleEnv with cloneOk := false }).lookup
      (dataDirE { sampleEnv with cloneOk := false }) = none ∧
    (finalFS { sampleEnv with cloneOk := false }).lookup
      (configPathE { sampleEnv with cloneOk := false }) = none :=
  C3_clone_failure_aborts { sampleEnv with cloneOk := false }
    (Or.inr rfl) rfl (fun _ => ⟨rfl, rfl⟩)

/-! ### Claim C8 -/

/-- C8: the Tomcat check is purely advisory — with all earlier steps
successful, the run exits 0 and logs the success banner for every
outcome of the check, and on failure it prints the advisory warning
carrying the remediation link. -/
theorem C8_tomcat_check_is_advisory (env : Env)
    (hgate : env.overwriteAnswer = true ∨ env.fs0.lookup (targetDirE env) = none)
    (hc : env.cloneOk = true) (hd : env.dataOk = true)
    (hcr : env.configReadOk = true) (hcw : env.configWriteOk = true)
    (hi : env.installOk = true) :
    (runPipeline env).exitCode = 0 ∧ (runPipeline env).doneLogged = true ∧
    (env.tomcatOk = false → (runPipeline env).warnMsgs = [tomcatWarnMsg] ∧
      ∃ pre, tomcatWarnMsg = pre ++ tomcatUrl) := by
  have hmsg : ∃ pre, tomcatWarnMsg = pre ++ tomcatUrl :=
    ⟨"Please install Tomcat to run the application.\n".toList, rfl⟩
  cases hde : (env.fs0.lookup (targetDirE env)).isSome with
  | false =>
      refine ⟨?_, ?_, fun ht => ⟨?_, hmsg⟩⟩
      · unfold runPipeline
        rw [show targetDirOf env.cwd env.nameInput = targetDirE env from rfl]
        simp [hde, hc, hd, hcr, hcw, hi]
      · unfold runPipeline
        rw [show targetDirOf env.cwd env.nameInput = targetDirE env from rfl]
        simp [hde, hc, hd, hcr, hcw, hi]
      · unfold runPipeline
        rw [show targetDirOf env.cwd env.nameInput = targetDirE env from rfl]
        simp [hde, hc, hd, hcr, hcw, hi, ht]
  | true =>
      have hans : env.overwriteAnswer = true := by
        rcases hgate with h | h
        · exact h
        · rw [h] at hde; cases hde
      refine ⟨?_, ?_, fun ht => ⟨?_, hmsg⟩⟩
      · unfold runPipeline
        rw [show targetDirOf env.cwd env.nameInput = targetDirE env from rfl]
        simp [hde, hans, hc, hd, hcr, hcw, hi]
      · unfold runPipeline
        rw [show targetDirOf env.cwd env.nameInput = targetDirE env from rfl]
        simp [hde, hans, hc, hd, hcr, hcw, hi]
      · unfold runPipeline
        rw [show targetDirOf env.cwd env.nameInput = targetDirE env from rfl]
        simp [hde, hans, hc, hd, hcr, hcw, hi, ht]

/-- Witness for C8 at a concrete environment whose Tomcat check fails. -/
theorem C8_witness :
    (runPipeline { sampleEnv with tomcatOk := false }).exitCode = 0 ∧
    (runPipeline { sampleEnv with tomcatOk := false }).doneLogged = true ∧
    (({ sampleEnv with tomcatOk := false } : Env).tomcatOk = false →
      (runPipeline { sampleEnv with tomcatOk := false }).warnMsgs = [tomcatWarnMsg] ∧
      ∃ pre, tomcatWarnMsg = pre ++ tomcatUrl) :=
  C8_tomcat_check_is_advisory { sampleEnv with tomcatOk := false }
    (Or.inr rfl) rfl rfl rfl rfl rfl

/-! ### Claim C6 -/

theorem lookup_writeFile_ne {dst p contents : Str} (fs : FS) (h : dst ≠ p) :
    List.lookup p (applyEv fs (.writeFile dst contents)) = List.lookup p fs :=
  lookup_cons_ne fs h

theorem lookup_copyFile_ne {dst p contents : Str} (fs : FS) (h : dst ≠ p) :
    List.lookup p (applyEv fs (.copyFile dst contents)) = List.lookup p fs :=
  lookup_cons_ne fs h

theorem lookup_copyFile_self {dst contents : Str} (fs : FS) :
    List.lookup dst (applyEv fs (.copyFile dst contents))
      = some (.file contents) :=
  lookup_cons_self fs

theorem underDir_trans {a b c : Str} (h1 : underDir a b = true)
    (h2 : underDir b c = true) : underDir a c = true := by
  unfold underDir at h1 h2 ⊢
  exact List.isPrefixOf_iff_prefix.2
    ((List.isPrefixOf_iff_prefix.1 h1).trans (List.isPrefixOf_iff_prefix.1 h2))

/-- Nothing under `app` lies under `data`. -/
theorem underDir_data_app_join (env : Env) (q : Str) :
    underDir (dataDirE env) (pathJoin (appDirE env) q) = false := by
  rw [Bool.eq_false_iff]
  intro h
  unfold underDir at h
  have h2 := List.isPrefixOf_iff_prefix.1 h
  rw [dataDirE, appDirE, segs_pathJoin, segs_pathJoin, segs_pathJoin] at h2
  rw [List.append_assoc] at h2
  have h3 := (List.prefix_append_right_inj (segs (targetDirE env))).1 h2
  rw [show segs "data".toList = ["data".toList] from by decide,
    show segs "app".toList = ["app".toList] from by decide,
    List.cons_append] at h3
  have h4 := (List.cons_prefix_cons.1 h3).1
  exact absurd h4 (by decide)

/-- `app` itself does not lie under `data`. -/
theorem underDir_data_app (env : Env) :
    underDir (dataDirE env) (appDirE env) = false := by
  rw [Bool.eq_false_iff]
  intro h
  unfold underDir at h
  have h2 := List.isPrefixOf_iff_prefix.1 h
  rw [dataDirE, appDirE, segs_pathJoin, segs_pathJoin] at h2
  have h3 := (List.prefix_append_right_inj (segs (targetDirE env))).1 h2
  rw [show segs "data".toList = ["data".toList] from by decide,
    show segs "app".toList = ["app".toList] from by decide] at h3
  have h4 := (List.cons_prefix_cons.1 h3).1
  exact absurd h4 (by decide)

/-- The filesystem produced by the provisioning steps of a successful
run, from a base filesystem containing nothing under the target
directory: ensure and clone `app`, ensure `data`, copy the four
templates, write the rendered config. -/
def provisionFS (env : Env) (base : FS) : FS :=
  applyEv (applyEv (applyEv (applyEv (applyEv (applyEv (applyEv (applyEv base
    (.ensureDir (appDirE env)))
    (.cloneInto (appDirE env) env.cloneTree))
    (.ensureDir (dataDirE env)))
    (.copyFile (pathJoin (dataDirE env) "users.json".toList) env.tplUsers))
    (.copyFile (pathJoin (dataDirE env) "bookings.json".toList) env.tplBookings))
    (.copyFile (pathJoin (dataDirE env) "transactions.json".toList)
      env.tplTransactions))
    (.copyFile (pathJoin (dataDirE env) "parkingSlots.json".toList) env.tplSlots))
    (.writeFile (configPathE env)
      (renderConfig (dataDirE env) env.configTemplate))

theorem configPath_ne_dataFile (env : Env) {name : Str} :
    configPathE env ≠ pathJoin (dataDirE env) name := by
  intro h
  have hu : underDir (dataDirE env) (configPathE env) = true := by
    rw [h]
    exact underDir_pathJoin _ _
  rw [configPathE] at hu
  rw [underDir_data_app_join env configRelPath] at hu
  cases hu

/-- The four positive lookups and the exactness direction over the
provisioned filesystem. -/
theorem provisionFS_lookup (env : Env) (base : FS)
    (hbase : ∀ p, underDir (targetDirE env) p = true →
      List.lookup p base = none) :
    (List.lookup (pathJoin (dataDirE env) "users.json".toList)
        (provisionFS env base) = some (.file env.tplUsers) ∧
     List.lookup (pathJoin (dataDirE env) "bookings.json".toList)
        (provisionFS env base) = some (.file env.tplBookings) ∧
     List.lookup (pathJoin (dataDirE env) "transactions.json".toList)
        (provisionFS env base) = some (.file env.tplTransactions) ∧
     List.lookup (pathJoin (dataDirE env) "parkingSlots.json".toList)
        (provisionFS env base) = some (.file env.tplSlots)) ∧
    ∀ p, strictUnder (dataDirE env) p →
      List.lookup p (provisionFS env base) ≠ none →
      (p = pathJoin (dataDirE env) "users.json".toList ∨
       p = pathJoin (dataDirE env) "bookings.json".toList ∨
       p = pathJoin (dataDirE env) "transactions.json".toList ∨
       p = pathJoin (dataDirE env) "parkingSlots.json".toList) := by
  constructor
  · refine ⟨?_, ?_, ?_, ?_⟩
    · unfold provisionFS
      rw [lookup_writeFile_ne _ (configPath_ne_dataFile env),
        lookup_copyFile_ne _ (pathJoin_ne_of_name_ne (by decide) (by decide)
          (by decide) (by decide) (by decide)),
        lookup_copyFile_ne _ (pathJoin_ne_of_name_ne (by decide) (by decide)
          (by decide) (by decide) (by decide)),
        lookup_copyFile_ne _ (pathJoin_ne_of_name_ne (by decide) (by decide)
          (by decide) (by decide) (by decide))]
      exact lookup_copyFile_self _
    · unfold provisionFS
      rw [lookup_writeFile_ne _ (configPath_ne_dataFile env),
        lookup_copyFile_ne _ (pathJoin_ne_of_name_ne (by decide) (by decide)
          (by decide) (by decide) (by decide)),
        lookup_copyFile_ne _ (pathJoin_ne_of_name_ne (by decide) (by decide)
          (by decide) (by decide) (by decide))]
      exact lookup_copyFile_self _
    · unfold provisionFS
      rw [lookup_writeFile_ne _ (configPath_ne_dataFile env),
        lookup_copyFile_ne _ (pathJoin_ne_of_name_ne (by decide) (by decide)
          (by decide) (by decide) (by decide))]
      exact lookup_copyFile_self _
    · unfold provisionFS
      rw [lookup_writeFile_ne _ (configPath_ne_dataFile env)]
      exact lookup_copyFile_self _
  · rintro p ⟨hp1, hp2⟩ hlook
    by_contra hnot
    push_neg at hnot
    obtain ⟨hnu, hnb, hnt, hns⟩ := hnot
    refine hlook ?_
    have hcfg : configPathE env ≠ p := by
      intro h
      have := underDir_data_app_join env configRelPath
      rw [show pathJoin (appDirE env) configRelPath = configPathE env from rfl,
        h, hp1] at this
      cases this
    have hDp : dataDirE env ≠ p := by
      intro h
      exact hp2 (by rw [← h])
    have hAp : appDirE env ≠ p := by
      intro h
      have := underDir_data_app env
      rw [h, hp1] at this
      cases this
    have hclone : ∀ rc ∈ env.cloneTree, pathJoin (appDirE env) rc.1 ≠ p := by
      intro rc _ h
      have := underDir_data_app_join env rc.1
      rw [h, hp1] at this
      cases this
    unfold provisionFS
    rw [lookup_writeFile_ne _ hcfg,
      lookup_copyFile_ne _ (fun h => hns h.symm),
      lookup_copyFile_ne _ (fun h => hnt h.symm),
      lookup_copyFile_ne _ (fun h => hnb h.symm),
      lookup_copyFile_ne _ (fun h => hnu h.symm),
      lookup_ensureDir_ne _ hDp,
      lookup_cloneInto_ne env.cloneTree _ hclone,
      lookup_ensureDir_ne _ hAp]
    exact hbase p (underDir_trans (underDir_pathJoin _ _) hp1)

/-- C6: after a successful run, DataDirectory contains exactly the four
files `users.json`, `bookings.json`, `transactions.json`,
`parkingSlots.json`, each byte-identical to the corresponding bundled
template. -/
theorem C6_data_directory_exact (env : Env)
    (hgate : env.overwriteAnswer = true ∨ env.fs0.lookup (targetDirE env) = none)
    (hc : env.cloneOk = true) (hd : env.dataOk = true)
    (hcr : env.configReadOk = true) (hcw : env.configWriteOk = true)
    (hi : env.installOk = true)
    (hwf : env.fs0.lookup (targetDirE env) = none →
      ∀ p, underDir (targetDirE env) p = true → env.fs0.lookup p = none) :
    ((finalFS env).lookup (pathJoin (dataDirE env) "users.json".toList)
        = some (.file env.tplUsers) ∧
     (finalFS env).lookup (pathJoin (dataDirE env) "bookings.json".toList)
        = some (.file env.tplBookings) ∧
     (finalFS env).lookup (pathJoin (dataDirE env) "transactions.json".toList)
        = some (.file env.tplTransactions) ∧
     (finalFS env).lookup (pathJoin (dataDirE env) "parkingSlots.json".toList)
        = some (.file env.tplSlots)) ∧
    ∀ p, strictUnder (dataDirE env) p → (finalFS env).lookup p ≠ none →
      (p = pathJoin (dataDirE env) "users.json".toList ∨
       p = pathJoin (dataDirE env) "bookings.json".toList ∨
       p = pathJoin (dataDirE env) "transactions.json".toList ∨
       p = pathJoin (dataDirE env) "parkingSlots.json".toList) := by
  have key : ∃ base : FS, finalFS env = provisionFS env base ∧
      ∀ p, underDir (targetDirE env) p = true → List.lookup p base = none := by
    cases hde : (env.fs0.lookup (targetDirE env)).isSome with
    | false =>
        have hnone : env.fs0.lookup (targetDirE env) = none := by
          cases hl : env.fs0.lookup (targetDirE env)
          · rfl
          · rw [hl] at hde; cases hde
        refine ⟨env.fs0, ?_, hwf hnone⟩
        have htrace : (runPipeline env).trace =
            [Ev.ensureDir (appDirE env),
             Ev.cloneInto (appDirE env) env.cloneTree,
             Ev.ensureDir (dataDirE env),
             Ev.copyFile (pathJoin (dataDirE env) "users.json".toList) env.tplUsers,
             Ev.copyFile (pathJoin (dataDirE env) "bookings.json".toList)
               env.tplBookings,
             Ev.copyFile (pathJoin (dataDirE env) "transactions.json".toList)
               env.tplTransactions,
             Ev.copyFile (pathJoin (dataDirE env) "parkingSlots.json".toList)
               env.tplSlots,
             Ev.writeFile (configPathE env)
               (renderConfig (dataDirE env) env.configTemplate)] := by
          unfold runPipeline
          rw [show targetDirOf env.cwd env.nameInput = targetDirE env from rfl]
          simp [hde, hc, hd, hcr, hcw, hi, copyEvents, dataFileNames,
            tplContents, appDirE, dataDirE, configPathE]
        unfold finalFS
        rw [htrace]
        rfl
    | true =>
        have hans : env.overwriteAnswer = true := by
          rcases hgate with h | h
          · exact h
          · rw [h] at hde; cases hde
        refine ⟨applyEv env.fs0 (.removeDir (targetDirE env)), ?_,
          fun p hp => lookup_removeDir hp env.fs0⟩
        have htrace : (runPipeline env).trace =
            [Ev.removeDir (targetDirE env),
             Ev.ensureDir (appDirE env),
             Ev.cloneInto (appDirE env) env.cloneTree,
             Ev.ensureDir (dataDirE env),
             Ev.copyFile (pathJoin (dataDirE env) "users.json".toList) env.tplUsers,
             Ev.copyFile (pathJoin (dataDirE env) "bookings.json".toList)
               env.tplBookings,
             Ev.copyFile (pathJoin (dataDirE env) "transactions.json".toList)
               env.tplTransactions,
             Ev.copyFile (pathJoin (dataDirE env) "parkingSlots.json".toList)
               env.tplSlots,
             Ev.writeFile (configPathE env)
               (renderConfig (dataDirE env) env.configTemplate)] := by
          unfold runPipeline
          rw [show targetDirOf env.cwd env.nameInput = targetDirE env from rfl]
          simp [hde, hans, hc, hd, hcr, hcw, hi, copyEvents, dataFileNames,
            tplContents, appDirE, dataDirE, configPathE]
        unfold finalFS
        rw [htrace]
        rfl
  obtain ⟨base, hfs, hbase⟩ := key
  rw [hfs]
  exact provisionFS_lookup env base hbase

/-- Witness for C6 at a concrete all-success environment. -/
theorem C6_witness :
    ((finalFS sampleEnv).lookup (pathJoin (dataDirE sampleEnv) "users.json".toList)
        = some (.file sampleEnv.tplUsers) ∧
     (finalFS sampleEnv).lookup (pathJoin (dataDirE sampleEnv) "bookings.json".toList)
        = some (.file sampleEnv.tplBookings) ∧
     (finalFS sampleEnv).lookup
        (pathJoin (dataDirE sampleEnv) "transactions.json".toList)
        = some (.file sampleEnv.tplTransactions) ∧
     (finalFS sampleEnv).lookup
        (pathJoin (dataDirE sampleEnv) "parkingSlots.json".toList)
        = some (.file sampleEnv.tplSlots)) ∧
    ∀ p, strictUnder (dataDirE sampleEnv) p →
      (finalFS sampleEnv).lookup p ≠ none →
      (p = pathJoin (dataDirE sampleEnv) "users.json".toList ∨
       p = pathJoin (dataDirE sampleEnv) "bookings.json".toList ∨
       p = pathJoin (dataDirE sampleEnv) "transactions.json".toList ∨
       p = pathJoin (dataDirE sampleEnv) "parkingSlots.json".toList) :=
  C6_data_directory_exact sampleEnv (Or.inr rfl) rfl rfl rfl rfl rfl
    (fun _ _ _ => rfl)

end ParkMe
